import Mathlib

/-!
# Verification of the ts-infrastructure persistence schema compilers

A shallow embedding of the schema-metadata registry and the three backend
schema compilers of the `packages/persistence` module:

* `packages/persistence/src/schema/database.schema.ts`
  (`DatabaseSchema` / `RelationshipProperty` decorators, `defineSchema`,
  `getDatabaseSchemaMetadata`),
* `packages/persistence/src/schema/domain-type-mappings.ts`
  (`DOMAIN_TYPE_MAPPINGS`, `DOMAIN_PRIMITIVE_TYPE_MAP`),
* `MongoSchema.extract` (document compiler),
* `PostgresSchema.extract` and `PostgresSchema.getTypeOrmEntity`
  (relational compiler, both source variants),
* `Neo4jSchema.extractSchema` (graph compiler),
* `MongoRepository.insert` / `MongoRepository.findById` (repository layer;
  the backing store and `getUniqueProperties` are external collaborators
  and are modelled from the spec where noted).

JavaScript values that matter to the compilers are embedded as explicit
inductive types; plain objects used as ordered string-keyed maps are
embedded as association lists whose update preserves the position of an
existing key and appends a new key (exactly the insertion-order semantics
of JavaScript object property assignment and of `Map.set`).  An absent
field of an options object is `Option.none`; `{...a, ...b}` is a
field-by-field right-biased merge.
-/

namespace TsInfra

/-- Property keys (JavaScript object keys, after `String(propertyKey)`). -/
abbrev Key := String

/-- Class identifiers: a constructor function is identified by a name. -/
abbrev ClassId := String

/-- A member of a runtime enum value list (string or numeric). -/
inductive EnumVal where
  | s (v : String)
  | n (v : Int)
deriving DecidableEq, Repr

/-- A `default` option value (the uuid generator function, the
`() => new Date()` thunk, or a literal). -/
inductive DefaultVal where
  | uuidGen
  | newDateFn
  | b (v : Bool)
  | sv (v : String)
  | nv (v : Int)
deriving DecidableEq, Repr

/-- Relationship direction (`'INCOMING' | 'OUTGOING' | 'BOTH'`). -/
inductive Direction where
  | incoming
  | outgoing
  | both
deriving DecidableEq, Repr

/-- Relationship cardinality in a relational context. -/
inductive Cardinality where
  | oneToOne
  | oneToMany
  | manyToOne
  | manyToMany
deriving DecidableEq, Repr

/-- The `target` of a relationship: either a direct constructor reference
or a lazy thunk `() => C`.  A thunk is a function value with its own
JavaScript `name` (`.name` on the thunk does *not* name the class it
returns; `Neo4jSchema.extractSchema` reads `relOptions.target.name`
without calling the thunk). -/
inductive TargetRef where
  | direct (c : ClassId)
  | lazy (c : ClassId) (thunkName : String)
deriving DecidableEq, Repr

/-- `IRelationshipPropertyOptions` (schema.interfaces.ts). -/
structure RelOptions where
  rtype : String
  target : TargetRef
  properties : Option (List String) := none
  direction : Option Direction := none
  cardinality : Option Cardinality := none
  owner : Option Bool := none
  inverse : Option String := none
  columns : Option (List String) := none
  table : Option String := none
  cascade : Option (List String) := none
  eager : Option Bool := none
deriving DecidableEq, Repr

/-- The runtime value stored in a descriptor's `type` option.  `cls c`
is a class constructor (its domain kind — `Entity` / `ValueObject` /
`Enumeration` subclass or plain — lives in the class table); `tsEnum`
is a plain TypeScript enum object together with its `Object.values`
list; `arr t` is a one-element array literal `[T]`; `schemaArr` is an
array holding a compiled Mongoose sub-schema — such a value is produced
only by `MongoSchema.extract`'s in-place pre-processing of a descriptor
(the sub-schema itself is not tracked at the metadata layer) and never
occurs in registered metadata; `other` is any other constructor. -/
inductive JType where
  | str
  | num
  | bool
  | date
  | obj
  | uid
  | cls (c : ClassId)
  | tsEnum (vals : List EnumVal)
  | arr (elem : JType)
  | schemaArr
  | other
deriving DecidableEq, Repr

/-- `IPropertySchemaMetadata`: the options object stored for one
property.  A `none` field is an absent key of the options object. -/
structure PropMeta where
  propertyKey : Key
  type : Option JType := none
  unique : Option Bool := none
  optional : Option Bool := none
  isIdentifier : Option Bool := none
  enum : Option (List EnumVal) := none
  dflt : Option DefaultVal := none
  isDomainAbstraction : Option Bool := none
  relationship : Option RelOptions := none
deriving DecidableEq, Repr

/-- The JavaScript object spread `{...a, ...b}` on two descriptor
objects: field-by-field shallow merge, fields present on `b` win,
fields of `a` absent from `b` are retained. -/
def PropMeta.merge (a b : PropMeta) : PropMeta where
  propertyKey := b.propertyKey
  type := b.type <|> a.type
  unique := b.unique <|> a.unique
  optional := b.optional <|> a.optional
  isIdentifier := b.isIdentifier <|> a.isIdentifier
  enum := b.enum <|> a.enum
  dflt := b.dflt <|> a.dflt
  isDomainAbstraction := b.isDomainAbstraction <|> a.isDomainAbstraction
  relationship := b.relationship <|> a.relationship

/-- `{...acc, ...p}` where `acc` may be `undefined` (spreading
`undefined` is a no-op, so the result is a copy of `p`). -/
def mergeUnder (acc : Option PropMeta) (p : PropMeta) : PropMeta :=
  match acc with
  | none => p
  | some a => a.merge p

/-- What `X.prototype instanceof Entity / ValueObject / Enumeration`
reports for a class constructor. -/
inductive DKind where
  | plain
  | entity
  | valueObject
  | enumeration
deriving DecidableEq, Repr

/-- Static facts about a class constructor: its `name`, its `instanceof`
kind, its prototype chain as walked by `getDatabaseSchemaMetadata`
(starting at the class itself, ending before `Object`; the trailing
`Function.prototype` / `Object.prototype` steps hold no metadata and
are omitted — they contribute nothing), and, for `Enumeration`
subclasses, `getEnumerationClassValues` of the class. -/
structure ClassInfo where
  name : String
  kind : DKind
  protoChain : List ClassId
  enumVals : List EnumVal := []
deriving Repr

/-- A class table: what the JavaScript runtime knows about each
constructor mentioned in the metadata. -/
abbrev ClassTable := ClassId → ClassInfo

/-- The mutable module state read (and potentially written through
aliases) by the compilers: the `Reflect` metadata store keyed by class
(`Reflect.getOwnMetadata(DatabaseSchemaMetadataKey, C)`), and the two
arrays held in `DOMAIN_TYPE_MAPPINGS`. -/
structure Registry where
  reflectStore : List (ClassId × List PropMeta)
  domainEntity : List PropMeta
  domainEnum : List PropMeta
deriving Repr

/-! ## Ordered string-keyed maps (JavaScript objects / `Map`) -/

/-- First value stored under key `k`. -/
def lookupKey {α : Type} (m : List (Key × α)) (k : Key) : Option α :=
  match m with
  | [] => none
  | (k', v) :: rest => if k' = k then some v else lookupKey rest k

/-- `m[k] = v` / `Map.set`: overwrite in place (keeping the position of
the first occurrence of `k`), append if `k` is new. -/
def setKey {α : Type} (m : List (Key × α)) (k : Key) (v : α) : List (Key × α) :=
  match m with
  | [] => [(k, v)]
  | (k', v') :: rest =>
      if k' = k then (k, v) :: rest else (k', v') :: setKey rest k v

theorem lookupKey_nil {α : Type} (k : Key) : lookupKey ([] : List (Key × α)) k = none := rfl

theorem lookupKey_setKey_self {α : Type} (m : List (Key × α)) (k : Key) (v : α) :
    lookupKey (setKey m k v) k = some v := by
  induction m with
  | nil => simp [setKey, lookupKey]
  | cons hd tl ih =>
      obtain ⟨k', v'⟩ := hd
      by_cases h : k' = k
      · simp [setKey, lookupKey, h]
      · simp [setKey, lookupKey, h, ih]

theorem lookupKey_setKey_ne {α : Type} (m : List (Key × α)) (k k' : Key) (v : α)
    (h : k' ≠ k) : lookupKey (setKey m k v) k' = lookupKey m k' := by
  have h' : ¬ k = k' := fun hh => h hh.symm
  induction m with
  | nil => simp [setKey, lookupKey, h']
  | cons hd tl ih =>
      obtain ⟨k₀, v₀⟩ := hd
      by_cases h0 : k₀ = k
      · subst h0
        simp [setKey, lookupKey, h']
      · simp [setKey, lookupKey, h0, ih]

theorem keys_setKey {α : Type} (m : List (Key × α)) (k : Key) (v : α) :
    (setKey m k v).map Prod.fst =
      if k ∈ m.map Prod.fst then m.map Prod.fst else m.map Prod.fst ++ [k] := by
  induction m with
  | nil => simp [setKey]
  | cons hd tl ih =>
      obtain ⟨k₀, v₀⟩ := hd
      by_cases h0 : k₀ = k
      · subst h0
        simp [setKey]
      · have hne : ¬ k = k₀ := fun hh => h0 hh.symm
        by_cases hk : k ∈ tl.map Prod.fst <;>
          simp [setKey, h0, ih, hne, hk]

/-! ## domain-type-mappings.ts -/

/-- `DOMAIN_TYPE_MAPPINGS.get(Entity)`. -/
def DOMAIN_ENTITY_META : List PropMeta :=
  [ { propertyKey := "_id", type := some .uid, isIdentifier := some true,
      isDomainAbstraction := some true, dflt := some .uuidGen },
    { propertyKey := "createdAt", type := some .date, isDomainAbstraction := some true },
    { propertyKey := "updatedAt", type := some .date, isDomainAbstraction := some true,
      optional := some true } ]

/-- `DOMAIN_TYPE_MAPPINGS.get(Enumeration)`. -/
def DOMAIN_ENUM_META : List PropMeta :=
  [ { propertyKey := "id", type := some .num, isDomainAbstraction := some true },
    { propertyKey := "name", type := some .str, isDomainAbstraction := some true } ]

/-- `getDomainSchemaMetadata`: non-empty only for the `Entity` and
`Enumeration` base constructors (the `ValueObject` entry of
`DOMAIN_TYPE_MAPPINGS` is commented out in the source).  The lists are
read from the mutable registry state, since the compilers hold aliases
into them. -/
def getDomainSchemaMetadata (reg : Registry) (c : ClassId) : List PropMeta :=
  if c = "Entity" then reg.domainEntity
  else if c = "Enumeration" then reg.domainEnum
  else []

/-- `getDatabaseTypeForDomainPrimitive` /
`DOMAIN_PRIMITIVE_TYPE_MAP.get`: only `UniqueIdentifier ↦ String`. -/
def domainPrimitiveFor (t : Option JType) : Option JType :=
  match t with
  | some .uid => some .str
  | _ => none

/-! ## database.schema.ts -/

/-- `Reflect.getOwnMetadata(DatabaseSchemaMetadataKey, c)`. -/
def getOwnMetadata (reg : Registry) (c : ClassId) : Option (List PropMeta) :=
  lookupKey reg.reflectStore c

/-- One absorbing step of the merge maps of `getDatabaseSchemaMetadata`
and `defineSchema`: `map.set(String(p.propertyKey), {...map.get(key), ...p})`. -/
def absorb (m : List (Key × PropMeta)) (p : PropMeta) : List (Key × PropMeta) :=
  setKey m p.propertyKey (mergeUnder (lookupKey m p.propertyKey) p)

/-- Folding `absorb` over a descriptor list. -/
def absorbAll (m : List (Key × PropMeta)) (l : List PropMeta) : List (Key × PropMeta) :=
  l.foldl absorb m

/-- Plain `map.set(String(p.propertyKey), p)` (no spread — used for the
domain metadata in `getDatabaseSchemaMetadata` and for the existing
properties in `defineSchema`). -/
def plainSet (m : List (Key × PropMeta)) (p : PropMeta) : List (Key × PropMeta) :=
  setKey m p.propertyKey p

def plainSetAll (m : List (Key × PropMeta)) (l : List PropMeta) : List (Key × PropMeta) :=
  l.foldl plainSet m

/-- The per-level merge of `getDatabaseSchemaMetadata`'s while-loop body:
domain metadata first (plain set), then explicit decorator metadata,
spread-merged over a colliding domain entry. -/
def levelMeta (reg : Registry) (c : ClassId) : List PropMeta :=
  (match getOwnMetadata reg c with
   | none => plainSetAll [] (getDomainSchemaMetadata reg c)
   | some explicitMetadata =>
       absorbAll (plainSetAll [] (getDomainSchemaMetadata reg c))
         explicitMetadata).map Prod.snd

/-- `getDatabaseSchemaMetadata(target)`: walk the prototype chain
(derived to base) collecting per-level merged metadata, keep the
non-empty levels, then fold from base to derived, spread-merging on key
collision.  Returns the values of the final insertion-ordered map. -/
def getDatabaseSchemaMetadata (reg : Registry) (CT : ClassTable) (c : ClassId) :
    List PropMeta :=
  (((((CT c).protoChain.map (levelMeta reg)).filter
        (fun l => !l.isEmpty)).reverse.foldl absorbAll []).map Prod.snd)

/-- The stored own metadata after one application of the
`@DatabaseSchema(options)` decorator to a property: the entry
`{propertyKey, ...options}` is pushed (never merged). -/
def databaseSchemaDecorator (own : List PropMeta) (p : PropMeta) : List PropMeta :=
  own ++ [p]

/-- The stored own metadata after `defineSchema(target, schemaDefinition)`:
the definition's entries (in object-key order, keys distinct) are merged
over the existing own metadata — existing entries are `set` unmerged,
then each new entry is spread-merged over a colliding one. -/
def defineSchemaStore (own defn : List PropMeta) : List PropMeta :=
  let mergedPropertiesMap := plainSetAll [] own
  let mergedPropertiesMap := absorbAll mergedPropertiesMap defn
  mergedPropertiesMap.map Prod.snd

/-! ## MongoSchema.extract (mongo.schema.ts, document compiler)

The compiled artifact: `new Schema(obj, {_id: shouldHaveId})`.  A field's
`typeDefinition` is one of several JavaScript shapes (a `{type: …}`
object, a bare one-element array, a nested `Schema`, …); the
`unique` / `optional` / `default` / `enum` assignments of lines 168–181
attach properties to whichever object `typeDefinition` currently is, so
they are carried uniformly next to the core shape. -/

/-- The value stored in a `{type: X}` slot when `X` is not an array or a
nested schema. -/
inductive MPrim where
  | str
  | num
  | bool
  | date
  | obj
  | undef
  | other
  | clsRef (c : ClassId)
  | tsEnumObj (vals : List EnumVal)
deriving DecidableEq, Repr

mutual
/-- A compiled Mongoose schema: its `obj` (ordered field map) and the
`_id` option passed to the constructor. -/
inductive MSchema where
  | mk (obj : List (Key × MField)) (hasId : Bool)

/-- One field of a compiled schema: the core `typeDefinition` shape plus
the `unique` / `optional` / `default` / `enum` properties attached to it
afterwards. -/
inductive MField where
  | mk (core : MCore) (unique : Option Bool) (optional : Option Bool)
      (dflt : Option DefaultVal) (enum : Option (List EnumVal))

/-- The core shape of a `typeDefinition`:
`typed t` ↦ `{type: t}`; `typedArrStr` ↦ `{type: [String]}` (the
relationship reference list); `bareArr t` ↦ `[String]`/`[Number]`;
`bareArrTypedEnum t vals` ↦ `[{type: t, enum: vals}]`;
`rawArr t` ↦ the raw `options.type` array passed through verbatim;
`bareArrSchema s` ↦ `[Schema]`; `schema s` ↦ a nested `Schema`. -/
inductive MCore where
  | typed (t : MPrim)
  | typedArrStr
  | bareArr (t : MPrim)
  | bareArrTypedEnum (t : MPrim) (vals : List EnumVal)
  | rawArr (t : JType)
  | bareArrSchema (s : MSchema)
  | schema (s : MSchema)
end

def MSchema.obj : MSchema → List (Key × MField)
  | .mk o _ => o

def MSchema.hasId : MSchema → Bool
  | .mk _ h => h

def MField.core : MField → MCore
  | .mk c _ _ _ _ => c

def MField.unique : MField → Option Bool
  | .mk _ u _ _ _ => u

def MField.optional : MField → Option Bool
  | .mk _ _ o _ _ => o

def MField.dflt : MField → Option DefaultVal
  | .mk _ _ _ d _ => d

def MField.enum : MField → Option (List EnumVal)
  | .mk _ _ _ _ e => e

/-- `new Schema({}, {_id: false})`: the empty placeholder returned for a
null class or a breached recursion limit. -/
def emptyMSchema : MSchema := MSchema.mk [] false

/-- `options.type` after the in-place pre-processing of lines 70–77:
either an ordinary runtime value, or an array now holding a compiled
sub-schema. -/
inductive PType where
  | base (t : JType)
  | arrSchema (s : MSchema)

/-- Whether a constructor satisfies
`X.prototype instanceof ValueObject || X.prototype instanceof Entity`. -/
def isEmbeddableKind (CT : ClassTable) (c : ClassId) : Bool :=
  match (CT c).kind with
  | .valueObject => true
  | .entity => true
  | _ => false

/-- `decoratedProps ++ domainBaseProps` (lines 44–60): the merged
decorator metadata followed by the raw domain-mapping arrays selected by
the `instanceof` checks on the target class.  The base-kind checks are
mutually exclusive (single inheritance), so they are folded into one
match on the class kind. -/
def mongoAllProps (reg : Registry) (CT : ClassTable) (c : ClassId) : List PropMeta :=
  let decoratedProps := getDatabaseSchemaMetadata reg CT c
  let domainBaseProps :=
    match (CT c).kind with
    | .entity => getDomainSchemaMetadata reg "Entity"
    | .enumeration => getDomainSchemaMetadata reg "Enumeration"
    | .valueObject => getDomainSchemaMetadata reg "ValueObject"
    | .plain => []
  decoratedProps ++ domainBaseProps

/-- The per-descriptor body of the `forEach` (lines 62–183): in-place
pre-processing of `options.type`, the relationship default, the
inference chain (an independent `if`, so it can overwrite the
relationship default), the fallback, and the final flag assignments.
`sub c0` is the recursive call `MongoSchema.extract(c0, depth + 1)`,
supplied by `mongoExtractB`. -/
def mongoFieldB (CT : ClassTable) (sub : ClassId → MSchema)
    (p : PropMeta) : MField :=
  -- lines 70–77: pre-process options.type
  let ptype : Option PType :=
    match p.type with
    | some (.arr .uid) => some (.base (.arr .str))
    | some (.arr (.cls c0)) =>
        if isEmbeddableKind CT c0 then some (.arrSchema (sub c0))
        else some (.base (.arr (.cls c0)))
    | some t => some (.base t)
    | none => none
  -- lines 87–147: the inference chain; `some (core, inferredEnum)` when a
  -- branch fires (isHandledByInference = true)
  let inferred : Option (MCore × Option (List EnumVal)) :=
    match ptype with
    | some (.base (.cls c0)) =>
        match (CT c0).kind with
        | .enumeration =>
            -- branch 1: Enumeration subclass → {type: String, enum: values}
            some (.typed .str, some (CT c0).enumVals)
        | .valueObject => some (.schema (sub c0), none)
        | .entity => some (.schema (sub c0), none)
        | .plain => none
    | some (.base (.arr item)) =>
        -- branch 2: arrays (after pre-processing)
        match item with
        | .str => some (.bareArr .str, none)
        | .num => some (.bareArr .num, none)
        | .cls c0 =>
            match (CT c0).kind with
            | .enumeration => some (.bareArrTypedEnum .str (CT c0).enumVals, none)
            | _ => some (.rawArr (.arr (.cls c0)), none)
        | t => some (.rawArr (.arr t), none)
    | some (.arrSchema s) => some (.bareArrSchema s, none)
    | some (.base (.tsEnum vals)) =>
        -- branch 3: plain TypeScript enum objects (all values, including
        -- numeric reverse mappings); an empty enum object is not handled
        if vals.isEmpty then none
        else
          let hasNumericValues := vals.any (fun v => match v with | .n _ => true | _ => false)
          some (.typed (if hasNumericValues then .num else .str), some vals)
    | some (.base .schemaArr) =>
        -- an array already holding a mongoose sub-schema: branch 2 keeps
        -- it as `[Schema]` (the sub-schema content is untracked at the
        -- metadata layer; such a value never occurs in registered
        -- metadata — see the registry-purity theorems)
        some (.bareArrSchema emptyMSchema, none)
    | _ => none
  let core_enum : MCore × Option (List EnumVal) :=
    match inferred with
    | some ce => ce
    | none =>
        if p.relationship.isSome then
          -- lines 80–85: relationship default, kept only when no
          -- inference branch fired
          (.typedArrStr, none)
        else
          -- lines 150–166: fallback
          match ptype with
          | none => (.typed .undef, none)
          | some (.arrSchema s) => (.bareArrSchema s, none)
          | some (.base t) =>
              match t with
              | .uid => (.typed .str, none)
              | .str => (.typed .str, none)
              | .num => (.typed .num, none)
              | .bool => (.typed .bool, none)
              | .date => (.typed .date, none)
              | .obj => (.typed .obj, none)
              | .cls c0 => (.typed (.clsRef c0), none)
              | .tsEnum vals => (.typed (.tsEnumObj vals), none)
              | .arr e => (.rawArr (.arr e), none)
              | .schemaArr => (.bareArrSchema emptyMSchema, none)
              | .other => (.typed .other, none)
  -- lines 168–181: unique / optional / default verbatim; an explicit
  -- `enum` option overwrites an inferred one
  MField.mk core_enum.1 p.unique p.optional p.dflt (p.enum <|> core_enum.2)

/-- `MongoSchema.extract(targetClass, depth)`, with the recursion
re-indexed by `budget = 6 - depth`: the guard `depth > 5` is exactly
`budget = 0`, and every recursive call `extract(…, depth + 1)` is made
under that guard, where `6 - (depth + 1) = budget - 1`.  The public
wrapper `mongoExtract` restores the `depth` signature of the source. -/
def mongoExtractB (reg : Registry) (CT : ClassTable) :
    Option ClassId → Nat → MSchema
  | none, _ => emptyMSchema
  | some _, 0 => emptyMSchema
  | some c, b + 1 =>
      let fields := (mongoAllProps reg CT c).map
        (fun p =>
          (p.propertyKey,
           mongoFieldB CT (fun c0 => mongoExtractB reg CT (some c0) b) p))
      let schemaObj := fields.foldl (fun m kv => setKey m kv.1 kv.2) []
      let shouldHaveId :=
        match (CT c).kind with
        | .entity => true
        | _ => false
      MSchema.mk schemaObj shouldHaveId

/-- `MongoSchema.extract(targetClass, depth)` with the source's `depth`
parameter (`depth > 5 ⟺ 6 - depth = 0`, and the recursive calls pass
`depth + 1 ⟺ budget - 1`). -/
def mongoExtract (reg : Registry) (CT : ClassTable) (c : Option ClassId)
    (depth : Nat := 0) : MSchema :=
  mongoExtractB reg CT c (6 - depth)

/-! ## PostgresSchema (postgres.schema.ts, relational compiler)

The source contains two variants of the class: one with an `extract`
method that also builds TypeORM relation descriptors (and renames an
`_id` identifier column to `id`, marking it unique), and one with a
`getTypeOrmEntity` method that skips relationship properties entirely.
Both are embedded. -/

/-- A TypeORM column `type` value as emitted by the compiler:
constructors `String`/`Number`/`Boolean`/`Date` or the string literals
`'jsonb'` / `'simple-array'`. -/
inductive PgType where
  | str
  | num
  | bool
  | date
  | jsonb
  | simpleArray
deriving DecidableEq, Repr

/-- A TypeORM `ColumnOptions` object as assembled by the compiler. -/
structure PgColumn where
  ctype : Option PgType := none
  unique : Option Bool := none
  enum : Option (List EnumVal) := none
  primary : Option Bool := none
  nullable : Option Bool := none
  dflt : Option DefaultVal := none
deriving DecidableEq, Repr

/-- A `joinColumn` value: `true` or `{name: columns[0]}` (the name is
absent when the declared `columns` array is empty). -/
inductive JoinColumnSpec where
  | auto
  | named (n : Option String)
deriving DecidableEq, Repr

/-- A `joinTable` value: `true`, or an object with an optional `name`
and optional `joinColumn` / `inverseJoinColumn` names. -/
inductive JoinTableSpec where
  | auto
  | obj (name : Option String) (joinColumn : Option String)
      (inverseJoinColumn : Option String)
deriving DecidableEq, Repr

/-- A TypeORM relation descriptor as assembled by
`PostgresSchema.extract`. -/
structure PgRelation where
  target : TargetRef
  inverseSide : Option String
  cascade : Option (List String)
  eager : Option Bool
  rkind : Cardinality
  joinColumn : Option JoinColumnSpec := none
  joinTable : Option JoinTableSpec := none
deriving DecidableEq, Repr

/-- A TypeORM `EntitySchema` as assembled by the compiler
(`relations` stays empty in the `getTypeOrmEntity` variant). -/
structure PgSchema where
  name : String
  columns : List (Key × PgColumn)
  relations : List (Key × PgRelation) := []
deriving DecidableEq, Repr

/-- `typeof metadata.type === 'object' && metadata.type !== null &&
Object.values(metadata.type).some(v => typeof v === 'string' ||
typeof v === 'number')`: true exactly for a TypeScript enum object with
at least one value (all embedded enum values are strings or numbers). -/
def isTsEnumWithVals : Option JType → Bool
  | some (.tsEnum vals) => ¬ vals.isEmpty
  | _ => false

/-- `metadata.type.prototype instanceof ValueObject || … instanceof
Entity` on the descriptor's type. -/
def isDomainAbstractionType (CT : ClassTable) : Option JType → Bool
  | some (.cls c0) => isEmbeddableKind CT c0
  | _ => false

/-- The same check on the first element of an array type. -/
def isArrayOfDomainAbstractionType (CT : ClassTable) : Option JType → Bool
  | some (.arr (.cls c0)) => isEmbeddableKind CT c0
  | _ => false

/-- The column-type inference of both Postgres variants (lines 82–129 /
205–252): returns the computed `columnType`, the inferred
`columnOptions.enum` (set only in the TypeScript-enum branch) and the
`columnOptions.default` set early in the domain-primitive branch. -/
def pgColumnBase (CT : ClassTable) (p : PropMeta) :
    PgType × Option (List EnumVal) × Option DefaultVal :=
  if (domainPrimitiveFor p.type).isSome then
    -- UniqueIdentifier → String; the default is applied in this branch
    (.str, none, p.dflt)
  else if isTsEnumWithVals p.type then
    match p.type with
    | some (.tsEnum vals) =>
        let isNumericEnum := vals.any (fun v => match v with | .n _ => true | _ => false)
        ((if isNumericEnum then .num else .str), some vals, none)
    | _ => (.str, none, none)
  else if isDomainAbstractionType CT p.type || isArrayOfDomainAbstractionType CT p.type then
    (.jsonb, none, none)
  else
    match p.type with
    | some .str => (.str, none, none)
    | some .num => (.num, none, none)
    | some .bool => (.bool, none, none)
    | some .date => (.date, none, none)
    | some .obj => (.jsonb, none, none)
    | some (.arr item) =>
        -- switch default, Array.isArray sub-branch
        match item with
        | .cls c0 =>
            match (CT c0).kind with
            | .enumeration => (.str, none, none)
            | _ => (.simpleArray, none, none)
        | _ => (.simpleArray, none, none)
    | some .schemaArr => (.simpleArray, none, none)
    | some (.cls c0) =>
        match (CT c0).kind with
        | .enumeration => (.str, none, none)
        | _ => (.str, none, none)
    | _ => (.str, none, none)

/-- The flag application shared by both variants (lines 131–155 /
254–275).  `identifierAlsoUnique` is true in the `extract` variant
(`columnOptions.unique = true` for identifiers) and false in
`getTypeOrmEntity`. -/
def pgColumnFor (CT : ClassTable) (identifierAlsoUnique : Bool) (p : PropMeta) : PgColumn :=
  let base := pgColumnBase CT p
  let idTruthy := p.isIdentifier = some true
  let uniq0 : Option Bool := if p.unique = some true then some true else none
  let uniq : Option Bool :=
    if idTruthy && identifierAlsoUnique then some true else uniq0
  { ctype := some base.1
    unique := uniq
    enum := p.enum <|> base.2.1
    primary := if idTruthy then some true else none
    nullable := p.optional
    dflt :=
      if p.dflt.isSome && ¬ (idTruthy && base.1 = .str) then p.dflt
      else base.2.2 }

/-- The relation descriptor built for a relationship property by
`PostgresSchema.extract` (lines 36–79); `none` when the declared
cardinality is absent or unknown (the property is skipped with a
warning, producing neither a relation nor a column). -/
def pgRelationFor (r : RelOptions) : Option PgRelation :=
  let common : PgRelation :=
    { target := r.target
      inverseSide := r.inverse
      cascade := r.cascade
      eager := r.eager
      rkind := .oneToOne }
  let ownerTruthy := r.owner = some true
  let joinColumnSpec : JoinColumnSpec :=
    match r.columns with
    | some cs => .named cs.head?
    | none => .auto
  match r.cardinality with
  | some .oneToOne =>
      some { common with
             rkind := .oneToOne
             joinColumn := if ownerTruthy then some joinColumnSpec else none }
  | some .oneToMany => some { common with rkind := .oneToMany }
  | some .manyToOne =>
      some { common with
             rkind := .manyToOne
             joinColumn := if ownerTruthy then some joinColumnSpec else none }
  | some .manyToMany =>
      let jt0 : JoinTableSpec :=
        match r.table with
        | some t => .obj (some t) none none
        | none => .auto
      let jt : JoinTableSpec :=
        match r.columns with
        | some cs =>
            if cs.length ≥ 2 then
              match jt0 with
              | .auto => .obj none cs.head? (cs.get? 1)
              | .obj n _ _ => .obj n cs.head? (cs.get? 1)
            else jt0
        | none => jt0
      some { common with
             rkind := .manyToMany
             joinTable := if ownerTruthy then some jt else none }
  | none => none

/-- The `columns['id'] / columns['name']` pre-seeding for classes whose
prototype is an `Enumeration` (lines 27–30 / 192–195). -/
def pgSeedColumns (CT : ClassTable) (c : ClassId) : List (Key × PgColumn) :=
  match (CT c).kind with
  | .enumeration => [("id", { ctype := some .num }), ("name", { ctype := some .str })]
  | _ => []

/-- The column key used by `PostgresSchema.extract`: an `_id` identifier
column is renamed to `id` for TypeORM. -/
def pgFinalKey (p : PropMeta) : Key :=
  if p.isIdentifier = some true && p.propertyKey = "_id" then "id"
  else p.propertyKey

/-- One iteration of `PostgresSchema.extract`'s property loop over the
state `(columns, relations)`. -/
def pgExtractStep (CT : ClassTable)
    (st : List (Key × PgColumn) × List (Key × PgRelation)) (p : PropMeta) :
    List (Key × PgColumn) × List (Key × PgRelation) :=
  match p.relationship with
  | some r =>
      match pgRelationFor r with
      | some rel => (st.1, setKey st.2 p.propertyKey rel)
      | none => st
  | none => (setKey st.1 (pgFinalKey p) (pgColumnFor CT true p), st.2)

/-- `PostgresSchema.extract(entityClass, depth)`: the variant that also
builds relation descriptors and renames an `_id` identifier column to
`id`. -/
def pgExtract (reg : Registry) (CT : ClassTable) (c : Option ClassId)
    (depth : Nat := 0) : PgSchema :=
  match c with
  | none => { name := "EmptyEntity", columns := [] }
  | some c =>
      if depth > 5 then { name := "EmptyEntity", columns := [] }
      else
        let st := (getDatabaseSchemaMetadata reg CT c).foldl (pgExtractStep CT)
          (pgSeedColumns CT c, [])
        { name := (CT c).name, columns := st.1, relations := st.2 }

/-- One iteration of `PostgresSchema.getTypeOrmEntity`'s property loop:
relationship properties are skipped entirely. -/
def pgTypeOrmStep (CT : ClassTable) (cols : List (Key × PgColumn)) (p : PropMeta) :
    List (Key × PgColumn) :=
  match p.relationship with
  | some _ => cols
  | none => setKey cols p.propertyKey (pgColumnFor CT false p)

/-- `PostgresSchema.getTypeOrmEntity(entityClass, depth)`: the variant
that skips relationship properties entirely (they become neither a
column nor a relation) and keeps column keys as declared. -/
def pgGetTypeOrmEntity (reg : Registry) (CT : ClassTable) (c : Option ClassId)
    (depth : Nat := 0) : PgSchema :=
  match c with
  | none => { name := "EmptyEntity", columns := [] }
  | some c =>
      if depth > 5 then { name := "EmptyEntity", columns := [] }
      else
        let cols := (getDatabaseSchemaMetadata reg CT c).foldl (pgTypeOrmStep CT)
          (pgSeedColumns CT c)
        { name := (CT c).name, columns := cols }

/-! ## Neo4jSchema.extractSchema (neo4j.schema.ts, graph compiler) -/

/-- One entry of `INeo4jNodeSchema.properties`; `ntype` is the Neo4j
type string and is always set by the property loop (the `none` default
only backs the unreachable `{...undefined, …}` spread of the identifier
post-processing). -/
structure NeoProp where
  ntype : Option String := none
  isIdentifier : Option Bool := none
  unique : Option Bool := none
  optional : Option Bool := none
  enum : Option (List EnumVal) := none
  dflt : Option DefaultVal := none
deriving DecidableEq, Repr

/-- `INeo4jNodeSchema`. -/
structure NeoNode where
  label : String
  properties : List (Key × NeoProp)
deriving DecidableEq, Repr

/-- `INeo4jRelationshipSchema`. -/
structure NeoRel where
  sourceLabel : String
  targetLabel : String
  rtype : String
  edgeProperties : List String
  direction : Direction
deriving DecidableEq, Repr

/-- `INeo4jSchemaDefinition`. -/
structure NeoSchemaDef where
  nodes : List NeoNode
  relationships : List NeoRel
deriving DecidableEq, Repr

/-- The JavaScript `name` of the value stored in a relationship's
`target` option: the class name for a direct reference, the function's
own name for a lazy thunk (`Neo4jSchema.extractSchema` reads
`relOptions.target.name` without invoking the thunk). -/
def TargetRef.jsName (CT : ClassTable) : TargetRef → String
  | .direct c => (CT c).name
  | .lazy _ n => n

/-- `Reflect.hasOwnMetadata(DatabaseSchemaMetadataKey, c)`. -/
def hasOwnReflect (reg : Registry) (c : ClassId) : Bool :=
  (getOwnMetadata reg c).isSome

/-- The Neo4j property-type mapping of `extractSchema` (lines 66–120). -/
def neoTypeOf (reg : Registry) (CT : ClassTable) (t : Option JType) : String :=
  match t with
  | some .uid => "string"
  | some .str => "string"
  | some .num => "number"
  | some .bool => "boolean"
  | some .date => "datetime"
  | some (.arr item) =>
      match item with
      | .uid => "string[]"
      | .str => "string[]"
      | .num => "number[]"
      | .bool => "boolean[]"
      | .date => "datetime[]"
      | .cls c0 =>
          if hasOwnReflect reg c0 || isEmbeddableKind CT c0 then "object[]"
          else "any[]"
      | _ => "any[]"
  | some .schemaArr => "any[]"
  | some (.tsEnum vals) =>
      if vals.isEmpty then "any"
      else if vals.any (fun v => match v with | .n _ => true | _ => false) then "number"
      else "string"
  | some .obj => "object"
  | some (.cls c0) =>
      if hasOwnReflect reg c0 || isEmbeddableKind CT c0 then "object" else "any"
  | some .other => "any"
  | none => "any"

/-- The `enum` value carried onto the node property: the TypeScript-enum
branch assigns `propertyOptions.enum = enumValues` unconditionally,
clobbering an explicit enum option; every other branch leaves the
descriptor's own `enum` in place. -/
def neoEnumOut (p : PropMeta) : Option (List EnumVal) :=
  match p.type with
  | some (.tsEnum vals) => if vals.isEmpty then p.enum else some vals
  | _ => p.enum

/-- The node property written for one descriptor (lines 122–129, after
the in-place `enum` mutation of the TypeScript-enum branch). -/
def neoPropFor (reg : Registry) (CT : ClassTable) (p : PropMeta) : NeoProp :=
  { ntype := some (neoTypeOf reg CT p.type)
    isIdentifier := p.isIdentifier
    unique := p.unique
    optional := p.optional
    enum := neoEnumOut p
    dflt := p.dflt }

/-- The relationship-key string used for de-duplication:
`` `${target.name}-${relOptions.type}-${relOptions.target.name}` ``. -/
def neoRelKey (CT : ClassTable) (srcName : String) (r : RelOptions) : String :=
  srcName ++ "-" ++ r.rtype ++ "-" ++ r.target.jsName CT

/-- The relationship descriptor pushed for one relationship property
(lines 131–146). -/
def neoRelFor (CT : ClassTable) (srcName : String) (r : RelOptions) : NeoRel :=
  { sourceLabel := srcName
    targetLabel := r.target.jsName CT
    rtype := r.rtype
    edgeProperties := r.properties.getD []
    direction := r.direction.getD .outgoing }

/-- One iteration of `extractSchema`'s property loop over the state
`(nodeSchema.properties, relationships, seenRelationships)`. -/
def neoStep (reg : Registry) (CT : ClassTable) (srcName : String)
    (st : List (Key × NeoProp) × List NeoRel × List String) (p : PropMeta) :
    List (Key × NeoProp) × List NeoRel × List String :=
  let props := setKey st.1 p.propertyKey (neoPropFor reg CT p)
  match p.relationship with
  | none => (props, st.2.1, st.2.2)
  | some r =>
      let relationshipKey := neoRelKey CT srcName r
      if relationshipKey ∈ st.2.2 then (props, st.2.1, st.2.2)
      else (props, st.2.1 ++ [neoRelFor CT srcName r], st.2.2 ++ [relationshipKey])

/-- The identifier post-processing (lines 149–168): the first descriptor
marked `isIdentifier` is forced `isIdentifier: true, unique: true`;
otherwise an existing `id` (or failing that `_id`) property is. -/
def neoFixIdentifier (metadata : List PropMeta) (props : List (Key × NeoProp)) :
    List (Key × NeoProp) :=
  match metadata.find? (fun p => p.isIdentifier == some true) with
  | some identifierProp =>
      let k := identifierProp.propertyKey
      setKey props k
        { (lookupKey props k).getD {} with isIdentifier := some true, unique := some true }
  | none =>
      match lookupKey props "id" with
      | some pr => setKey props "id" { pr with isIdentifier := some true, unique := some true }
      | none =>
          match lookupKey props "_id" with
          | some pr =>
              setKey props "_id" { pr with isIdentifier := some true, unique := some true }
          | none => props

/-- `Neo4jSchema.extractSchema(target)`. -/
def neoExtractSchema (reg : Registry) (CT : ClassTable) (c : ClassId) : NeoSchemaDef :=
  let metadata := getDatabaseSchemaMetadata reg CT c
  let st := metadata.foldl (neoStep reg CT (CT c).name) ([], [], [])
  let props := neoFixIdentifier metadata st.1
  { nodes := [{ label := (CT c).name, properties := props }]
    relationships := st.2.1 }

/-! ## MongoRepository.insert / findById (mongo.repository.ts)

The repository's control flow (unique pre-check, throw with the stable
code `UNIQUE_CONSTRAINT_VIOLATION`, save, findById + hydrate) is code of
this repository; the backing Mongoose collection and the domain
package's `getUniqueProperties` are external collaborators and are
modelled from the spec. -/

/-- A primitive field value of a stored document / domain entity. -/
inductive JVal where
  | s (v : String)
  | i (v : Int)
  | b (v : Bool)
deriving DecidableEq, Repr

/-- Modelled from the spec: a hydratable domain entity — object identity
(`entity.id.value`) plus its plain property values.  `entity.document`
is the raw record sent to the store (`_id` carries the identifier, as
document stores use an underscored identifier field). -/
structure EntityV where
  id : String
  fields : List (Key × JVal)
deriving DecidableEq, Repr

/-- A stored document: the raw record of an entity. -/
abbrev MDoc := List (Key × JVal)

/-- `entity.document`. -/
def EntityV.document (e : EntityV) : MDoc :=
  ("_id", .s e.id) :: e.fields

/-- `(entity as any)[prop]`. -/
def EntityV.get (e : EntityV) (k : Key) : Option JVal :=
  lookupKey e.fields k

/-- Modelled from the spec: the backing Mongoose collection, as the list
of stored documents in insertion order. -/
abbrev MStore := List MDoc

/-- Modelled from the spec: `this.model.findOne(query)` — the first
stored document whose fields match every pair of the query. -/
def findOneDoc (store : MStore) (query : List (Key × Option JVal)) : Option MDoc :=
  store.find? (fun d => query.all (fun kv => lookupKey d kv.1 == kv.2))

/-- Modelled from the spec: `this.model.findById(id)` — the stored
document whose `_id` equals the identifier. -/
def findByIdDoc (store : MStore) (id : String) : Option MDoc :=
  store.find? (fun d => lookupKey d "_id" == some (JVal.s id))

/-- The error thrown by the repository (an `ApiException` carrying a
stable machine-readable code list). -/
structure ApiErr where
  code : List String
deriving DecidableEq, Repr

/-- `MongoRepository.insert(entity)`: when unique-marked properties
exist, a matching stored document aborts the insert with
`UNIQUE_CONSTRAINT_VIOLATION` before anything is saved; otherwise the
entity's document is saved.  `uniqueProperties` is modelled from the
spec as the result of the external `getUniqueProperties(entity.constructor)`
(the keys registered with `unique: true`). -/
def mongoInsert (uniqueProperties : List Key) (store : MStore) (e : EntityV) :
    Except ApiErr Unit × MStore :=
  if uniqueProperties.isEmpty then (Except.ok (), store ++ [e.document])
  else
    let uniqueQuery := uniqueProperties.map (fun prop => (prop, e.get prop))
    match findOneDoc store uniqueQuery with
    | some _ => (Except.error { code := ["UNIQUE_CONSTRAINT_VIOLATION"] }, store)
    | none => (Except.ok (), store ++ [e.document])

/-- `MongoRepository.findById(id)`: hydrate the matching document with
the caller-registered hydration function (`onHydrate`). -/
def mongoFindById (hydrateFn : MDoc → EntityV) (store : MStore) (id : String) :
    Option EntityV :=
  (findByIdDoc store id).map hydrateFn

/-! ## Generic facts about the ordered-map folds -/

/-- Left fold of the shallow merge over the successive declarations of
one key (`none` when there is no declaration). -/
def mergeFold (acc : Option PropMeta) : List PropMeta → Option PropMeta
  | [] => acc
  | p :: rest => mergeFold (some (mergeUnder acc p)) rest

theorem mergeFold_ne_none (l : List PropMeta) (acc : PropMeta) :
    mergeFold (some acc) l ≠ none := by
  induction l generalizing acc with
  | nil => simp [mergeFold]
  | cons p rest ih => simpa [mergeFold, mergeUnder] using ih (acc.merge p)

theorem mergeFold_eq_none (l : List PropMeta) :
    mergeFold none l = none ↔ l = [] := by
  cases l with
  | nil => simp [mergeFold]
  | cons p rest =>
      simp only [mergeFold, mergeUnder]
      exact ⟨fun h => absurd h (mergeFold_ne_none rest p), fun h => nomatch h⟩

theorem optOrElse_assoc {α : Type} (a b c : Option α) :
    ((a <|> b) <|> c) = (a <|> (b <|> c)) := by
  cases a <;> rfl

/-- `{...a, ...b}` is associative field-by-field. -/
theorem PropMeta.merge_assoc (a b c : PropMeta) :
    (a.merge b).merge c = a.merge (b.merge c) := by
  simp [PropMeta.merge, optOrElse_assoc]

theorem mergeUnder_merge (acc : Option PropMeta) (a b : PropMeta) :
    mergeUnder (some (mergeUnder acc a)) b = mergeUnder acc (a.merge b) := by
  cases acc with
  | none => rfl
  | some x => simp [mergeUnder, PropMeta.merge_assoc]

theorem mergeFold_append (acc : Option PropMeta) (l₁ l₂ : List PropMeta) :
    mergeFold acc (l₁ ++ l₂) = mergeFold (mergeFold acc l₁) l₂ := by
  induction l₁ generalizing acc with
  | nil => rfl
  | cons p rest ih => simp [mergeFold, ih]

theorem absorbAll_nil (m : List (Key × PropMeta)) : absorbAll m [] = m := rfl

theorem absorbAll_cons (m : List (Key × PropMeta)) (p : PropMeta) (l : List PropMeta) :
    absorbAll m (p :: l) = absorbAll (absorb m p) l := rfl

theorem absorbAll_append (m : List (Key × PropMeta)) (l₁ l₂ : List PropMeta) :
    absorbAll m (l₁ ++ l₂) = absorbAll (absorbAll m l₁) l₂ := by
  simp [absorbAll, List.foldl_append]

theorem lookupKey_absorb_self (m : List (Key × PropMeta)) (p : PropMeta) :
    lookupKey (absorb m p) p.propertyKey
      = some (mergeUnder (lookupKey m p.propertyKey) p) := by
  simp [absorb, lookupKey_setKey_self]

theorem lookupKey_absorb_ne (m : List (Key × PropMeta)) (p : PropMeta) (k : Key)
    (h : k ≠ p.propertyKey) : lookupKey (absorb m p) k = lookupKey m k :=
  lookupKey_setKey_ne _ _ _ _ h

/-- The merged value under key `k` after absorbing a declaration list is
the shallow-merge fold over the declarations for `k`, in order. -/
theorem lookupKey_absorbAll (m : List (Key × PropMeta)) (l : List PropMeta) (k : Key) :
    lookupKey (absorbAll m l) k
      = mergeFold (lookupKey m k) (l.filter (fun p => p.propertyKey == k)) := by
  induction l generalizing m with
  | nil => rfl
  | cons p rest ih =>
      rw [absorbAll_cons, ih]
      by_cases h : p.propertyKey = k
      · subst h
        simp [lookupKey_absorb_self, mergeFold]
      · have hne : k ≠ p.propertyKey := fun hh => h hh.symm
        simp [lookupKey_absorb_ne _ _ _ hne, h]

/-- Keys already present are kept in place; a fold can only append new
keys at the end. -/
theorem keys_absorb (m : List (Key × PropMeta)) (p : PropMeta) :
    (absorb m p).map Prod.fst =
      if p.propertyKey ∈ m.map Prod.fst then m.map Prod.fst
      else m.map Prod.fst ++ [p.propertyKey] :=
  keys_setKey m p.propertyKey _

theorem nodup_keys_setKey {α : Type} (m : List (Key × α)) (k : Key) (v : α)
    (h : (m.map Prod.fst).Nodup) : ((setKey m k v).map Prod.fst).Nodup := by
  rw [keys_setKey]
  by_cases hk : k ∈ m.map Prod.fst
  · simpa [hk]
  · rw [if_neg hk]
    refine List.Nodup.append h (List.nodup_singleton k) ?_
    intro a ha hb
    rcases List.mem_singleton.mp hb with rfl
    exact hk ha

theorem mem_keys_setKey {α : Type} (m : List (Key × α)) (k k' : Key) (v : α) :
    k' ∈ (setKey m k v).map Prod.fst ↔ k' ∈ m.map Prod.fst ∨ k' = k := by
  rw [keys_setKey]
  by_cases hk : k ∈ m.map Prod.fst
  · simp only [hk, if_true]
    constructor
    · exact fun h => Or.inl h
    · rintro (h | rfl)
      · exact h
      · exact hk
  · simp [hk]

theorem nodup_keys_absorbAll (m : List (Key × PropMeta)) (l : List PropMeta)
    (h : (m.map Prod.fst).Nodup) : ((absorbAll m l).map Prod.fst).Nodup := by
  induction l generalizing m with
  | nil => exact h
  | cons p rest ih => exact ih _ (nodup_keys_setKey _ _ _ h)

theorem mem_keys_absorb (m : List (Key × PropMeta)) (p : PropMeta) (k : Key) :
    k ∈ (absorb m p).map Prod.fst ↔ k ∈ m.map Prod.fst ∨ k = p.propertyKey :=
  mem_keys_setKey m p.propertyKey k _

theorem mem_keys_absorbAll (m : List (Key × PropMeta)) (l : List PropMeta) (k : Key) :
    k ∈ (absorbAll m l).map Prod.fst
      ↔ k ∈ m.map Prod.fst ∨ ∃ p ∈ l, p.propertyKey = k := by
  induction l generalizing m with
  | nil => simp [absorbAll_nil]
  | cons p rest ih =>
      rw [absorbAll_cons, ih, mem_keys_absorb]
      constructor
      · rintro (⟨h | rfl⟩ | ⟨q, hq, rfl⟩)
        · exact Or.inl h
        · exact Or.inr ⟨p, List.mem_cons_self _ _, rfl⟩
        · exact Or.inr ⟨q, List.mem_cons_of_mem _ hq, rfl⟩
      · rintro (h | ⟨q, hq, rfl⟩)
        · exact Or.inl (Or.inl h)
        · rcases List.mem_cons.mp hq with rfl | hq
          · exact Or.inl (Or.inr rfl)
          · exact Or.inr ⟨q, hq, rfl⟩

/-- Every map built by the folds stores values whose `propertyKey` is
their key. -/
def KeyedInv (m : List (Key × PropMeta)) : Prop :=
  ∀ kv ∈ m, (kv.2 : PropMeta).propertyKey = kv.1

theorem keyedInv_nil : KeyedInv [] := by intro kv h; cases h

theorem keyedInv_setKey (m : List (Key × PropMeta)) (k : Key) (v : PropMeta)
    (hv : v.propertyKey = k) (h : KeyedInv m) : KeyedInv (setKey m k v) := by
  induction m with
  | nil =>
      intro kv hkv
      rcases List.mem_singleton.mp hkv with rfl
      exact hv
  | cons hd tl ih =>
      obtain ⟨k₀, v₀⟩ := hd
      have htl : KeyedInv tl := fun kv hkv => h kv (List.mem_cons_of_mem _ hkv)
      by_cases h0 : k₀ = k
      · subst h0
        simp only [setKey, if_pos rfl]
        intro kv hkv
        rcases List.mem_cons.mp hkv with rfl | hkv
        · exact hv
        · exact htl kv hkv
      · simp only [setKey, if_neg h0]
        intro kv hkv
        rcases List.mem_cons.mp hkv with rfl | hkv
        · exact h _ (List.mem_cons_self _ _)
        · exact ih htl kv hkv

theorem mergeUnder_propertyKey (acc : Option PropMeta) (p : PropMeta) :
    (mergeUnder acc p).propertyKey = p.propertyKey := by
  cases acc <;> simp [mergeUnder, PropMeta.merge]

theorem keyedInv_absorb (m : List (Key × PropMeta)) (p : PropMeta)
    (h : KeyedInv m) : KeyedInv (absorb m p) :=
  keyedInv_setKey m p.propertyKey _ (mergeUnder_propertyKey _ _) h

theorem keyedInv_absorbAll (m : List (Key × PropMeta)) (l : List PropMeta)
    (h : KeyedInv m) : KeyedInv (absorbAll m l) := by
  induction l generalizing m with
  | nil => exact h
  | cons p rest ih => exact ih _ (keyedInv_absorb _ _ h)

theorem keyedInv_plainSetAll (m : List (Key × PropMeta)) (l : List PropMeta)
    (h : KeyedInv m) : KeyedInv (plainSetAll m l) := by
  induction l generalizing m with
  | nil => exact h
  | cons p rest ih => exact ih _ (keyedInv_setKey _ _ _ rfl h)

theorem nodup_keys_plainSetAll (m : List (Key × PropMeta)) (l : List PropMeta)
    (h : (m.map Prod.fst).Nodup) : ((plainSetAll m l).map Prod.fst).Nodup := by
  induction l generalizing m with
  | nil => exact h
  | cons p rest ih => exact ih _ (nodup_keys_setKey _ _ _ h)

/-- The values of a keyed, duplicate-free map that carry key `k` are
exactly the looked-up value. -/
theorem filter_values_eq_lookup (m : List (Key × PropMeta)) (k : Key)
    (hinv : KeyedInv m) (hnd : (m.map Prod.fst).Nodup) :
    (m.map Prod.snd).filter (fun p => p.propertyKey == k)
      = (lookupKey m k).toList := by
  induction m with
  | nil => simp [lookupKey]
  | cons hd tl ih =>
      obtain ⟨k₀, v₀⟩ := hd
      have hv₀ : v₀.propertyKey = k₀ := hinv _ (List.mem_cons_self _ _)
      have htl : KeyedInv tl := fun kv hkv => hinv kv (List.mem_cons_of_mem _ hkv)
      have hndtl : (tl.map Prod.fst).Nodup := (List.nodup_cons.mp hnd).2
      by_cases h0 : k₀ = k
      · subst h0
        have hk₀ : k₀ ∉ tl.map Prod.fst := (List.nodup_cons.mp hnd).1
        have : (tl.map Prod.snd).filter (fun p => p.propertyKey == k₀) = [] := by
          rw [List.filter_eq_nil_iff]
          intro p hp
          rcases List.mem_map.mp hp with ⟨⟨kk, vv⟩, hkv, rfl⟩
          have : vv.propertyKey = kk := htl _ hkv
          simp only [this, beq_iff_eq]
          intro hcon
          exact hk₀ (hcon ▸ List.mem_map.mpr ⟨(kk, vv), hkv, rfl⟩)
        simp [lookupKey, hv₀, this]
      · have : ¬ (v₀.propertyKey == k) = true := by simp [hv₀, h0]
        simp [lookupKey, h0, this, ih htl hndtl]

theorem find?_values_eq_lookup (m : List (Key × PropMeta)) (k : Key)
    (hinv : KeyedInv m) :
    (m.map Prod.snd).find? (fun p => p.propertyKey == k) = lookupKey m k := by
  induction m with
  | nil => simp [lookupKey]
  | cons hd tl ih =>
      obtain ⟨k₀, v₀⟩ := hd
      have hv₀ : v₀.propertyKey = k₀ := hinv _ (List.mem_cons_self _ _)
      have htl : KeyedInv tl := fun kv hkv => hinv kv (List.mem_cons_of_mem _ hkv)
      by_cases h0 : k₀ = k
      · subst h0
        simp [lookupKey, List.find?, hv₀]
      · have : ¬ (v₀.propertyKey == k) = true := by simp [hv₀, h0]
        simp only [List.map_cons, List.find?, this, lookupKey, if_neg h0]
        exact ih htl

theorem flatten_filter_not_isEmpty {α : Type} (ls : List (List α)) :
    (ls.filter (fun l => !l.isEmpty)).flatten = ls.flatten := by
  induction ls with
  | nil => rfl
  | cons l ls ih => cases l <;> simp_all

theorem foldl_absorbAll_eq_flatten (ls : List (List PropMeta)) (m : List (Key × PropMeta)) :
    ls.foldl absorbAll m = absorbAll m ls.flatten := by
  induction ls generalizing m with
  | nil => rfl
  | cons l ls ih => simp [List.foldl_cons, ih, absorbAll_append]

/-- The final merge map of `getDatabaseSchemaMetadata` is one absorbing
fold over the per-level declarations flattened from base to derived. -/
theorem getDatabaseSchemaMetadata_eq_absorb (reg : Registry) (CT : ClassTable)
    (c : ClassId) :
    getDatabaseSchemaMetadata reg CT c =
      (absorbAll [] (((CT c).protoChain.map (levelMeta reg)).reverse.flatten)).map
        Prod.snd := by
  unfold getDatabaseSchemaMetadata
  rw [foldl_absorbAll_eq_flatten, ← List.filter_reverse, flatten_filter_not_isEmpty]

/-! ## C1: inheritance merge of `getDatabaseSchemaMetadata` -/

/-- The declarations for key `k` contributed by the hierarchy levels of
class `c`, flattened from the least-derived level to the most-derived
one (each level contributes its merged domain + decorator declaration). -/
def hierarchyDecls (reg : Registry) (CT : ClassTable) (c : ClassId) (k : Key) :
    List PropMeta :=
  (((CT c).protoChain.map (levelMeta reg)).reverse.flatten).filter
    (fun p => p.propertyKey == k)

/-- C1.  A key declared at several hierarchy levels appears exactly once
in the merged descriptor, and its entry is the field-by-field shallow
merge of the per-level declarations folded from the least-derived class
to the most-derived one (`PropMeta.merge`: a field set by a more-derived
declaration wins, a base field absent from the derived declaration is
retained). -/
theorem C1_hierarchy_merge (reg : Registry) (CT : ClassTable) (c : ClassId) (k : Key)
    (h : 2 ≤ (hierarchyDecls reg CT c k).length) :
    ((getDatabaseSchemaMetadata reg CT c).filter (fun p => p.propertyKey == k)).length = 1
    ∧ (getDatabaseSchemaMetadata reg CT c).find? (fun p => p.propertyKey == k)
        = mergeFold none (hierarchyDecls reg CT c k) := by
  rw [getDatabaseSchemaMetadata_eq_absorb]
  set J := ((CT c).protoChain.map (levelMeta reg)).reverse.flatten with hJ
  have hinv : KeyedInv (absorbAll [] J) := keyedInv_absorbAll _ _ keyedInv_nil
  have hnd : ((absorbAll [] J).map Prod.fst).Nodup :=
    nodup_keys_absorbAll _ _ (by simp)
  have hlook : lookupKey (absorbAll [] J) k = mergeFold none (hierarchyDecls reg CT c k) := by
    rw [lookupKey_absorbAll]
    rfl
  have hne : hierarchyDecls reg CT c k ≠ [] := by
    intro hcon
    rw [hcon] at h
    simp at h
  constructor
  · rw [filter_values_eq_lookup _ _ hinv hnd, hlook]
    rcases hd : mergeFold none (hierarchyDecls reg CT c k) with _ | v
    · exact absurd ((mergeFold_eq_none _).mp hd) hne
    · rfl
  · rw [find?_values_eq_lookup _ _ hinv, hlook]

/-- A two-level hierarchy declaring `f` at both levels: the base level
declares `{type: Number, optional: true}`, the derived level
`{optional: false}`; the merged descriptor has exactly one `f` entry,
with the derived `optional` winning and the base `type` retained. -/
def c1CT : ClassTable := fun c =>
  if c = "DerivedW" then
    { name := "DerivedW", kind := .plain, protoChain := ["DerivedW", "BaseW"] }
  else { name := "BaseW", kind := .plain, protoChain := ["BaseW"] }

def c1Reg : Registry :=
  { reflectStore :=
      [ ("BaseW", [{ propertyKey := "f", type := some .num, optional := some true }]),
        ("DerivedW", [{ propertyKey := "f", optional := some false }]) ]
    domainEntity := DOMAIN_ENTITY_META
    domainEnum := DOMAIN_ENUM_META }

/-- Witness for C1 at a concrete two-level hierarchy. -/
theorem C1_hierarchy_merge_witness :
    2 ≤ (hierarchyDecls c1Reg c1CT "DerivedW" "f").length
    ∧ (((getDatabaseSchemaMetadata c1Reg c1CT "DerivedW").filter
          (fun p => p.propertyKey == "f")).length = 1
        ∧ (getDatabaseSchemaMetadata c1Reg c1CT "DerivedW").find?
            (fun p => p.propertyKey == "f")
          = mergeFold none (hierarchyDecls c1Reg c1CT "DerivedW" "f")) :=
  ⟨by decide, C1_hierarchy_merge c1Reg c1CT "DerivedW" "f" (by decide)⟩

/-! ## C9: `defineSchema` vs. repeated `@DatabaseSchema` decorators -/

/-- The entry list of a map whose keys are the descriptors' own keys. -/
def pairList (l : List PropMeta) : List (Key × PropMeta) :=
  l.map (fun p => (p.propertyKey, p))

theorem pairList_map_snd (l : List PropMeta) : (pairList l).map Prod.snd = l := by
  induction l with
  | nil => rfl
  | cons p rest ih => simp [pairList] at ih ⊢; exact ih

theorem pairList_map_fst (l : List PropMeta) :
    (pairList l).map Prod.fst = l.map (fun p => p.propertyKey) := by
  simp [pairList]

theorem keyedInv_pairList (l : List PropMeta) : KeyedInv (pairList l) := by
  intro kv hkv
  rcases List.mem_map.mp hkv with ⟨p, _, rfl⟩
  rfl

theorem setKey_append_of_not_mem {α : Type} (m : List (Key × α)) (k : Key) (v : α)
    (h : k ∉ m.map Prod.fst) : setKey m k v = m ++ [(k, v)] := by
  induction m with
  | nil => rfl
  | cons hd tl ih =>
      obtain ⟨k₀, v₀⟩ := hd
      have h0 : k₀ ≠ k := by
        intro hcon
        exact h (by simp [hcon])
      have htl : k ∉ tl.map Prod.fst := fun hc => h (by simp [hc])
      simp [setKey, h0, ih htl]

theorem plainSetAll_append_of_disjoint (m : List (Key × PropMeta)) (l : List PropMeta)
    (hd : ∀ p ∈ l, p.propertyKey ∉ m.map Prod.fst)
    (hl : (l.map (fun p => p.propertyKey)).Nodup) :
    plainSetAll m l = m ++ pairList l := by
  induction l generalizing m with
  | nil => simp [plainSetAll, pairList]
  | cons p rest ih =>
      have hp : p.propertyKey ∉ m.map Prod.fst := hd p (List.mem_cons_self _ _)
      have hstep : plainSet m p = m ++ [(p.propertyKey, p)] :=
        setKey_append_of_not_mem _ _ _ hp
      have hlrest : (rest.map (fun p => p.propertyKey)).Nodup :=
        (List.nodup_cons.mp hl).2
      have hdrest : ∀ q ∈ rest, q.propertyKey ∉ (m ++ [(p.propertyKey, p)]).map Prod.fst := by
        intro q hq
        rw [List.map_append]
        intro hmem
        rcases List.mem_append.mp hmem with hmem | hmem
        · exact hd q (List.mem_cons_of_mem _ hq) hmem
        · have hqk : q.propertyKey = p.propertyKey := by simpa using hmem
          refine (List.nodup_cons.mp hl).1 ?_
          show p.propertyKey ∈ rest.map (fun p => p.propertyKey)
          rw [← hqk]
          exact List.mem_map.mpr ⟨q, hq, rfl⟩
      calc plainSetAll m (p :: rest)
      _ = plainSetAll (m ++ [(p.propertyKey, p)]) rest := by
            simp [plainSetAll, hstep]
      _ = m ++ [(p.propertyKey, p)] ++ pairList rest := ih _ hdrest hlrest
      _ = m ++ pairList (p :: rest) := by simp [pairList]

theorem plainSetAll_eq_pairList (l : List PropMeta)
    (hl : (l.map (fun p => p.propertyKey)).Nodup) :
    plainSetAll [] l = pairList l := by
  simpa using plainSetAll_append_of_disjoint [] l (by simp) hl

theorem mem_keys_of_lookupKey_some {α : Type} (m : List (Key × α)) (k : Key) (v : α)
    (h : lookupKey m k = some v) : k ∈ m.map Prod.fst := by
  induction m with
  | nil => simp [lookupKey] at h
  | cons hd tl ih =>
      obtain ⟨k₀, v₀⟩ := hd
      by_cases h0 : k₀ = k
      · simp [h0]
      · simp only [lookupKey, if_neg h0] at h
        simp [ih h]

theorem lookupKey_eq_none_of_not_mem {α : Type} (m : List (Key × α)) (k : Key)
    (h : k ∉ m.map Prod.fst) : lookupKey m k = none := by
  cases hlk : lookupKey m k with
  | none => rfl
  | some v => exact absurd (mem_keys_of_lookupKey_some m k v hlk) h

/-- Extensionality for keyed duplicate-free maps: same key sequence and
same lookups means equal maps. -/
theorem assoc_ext {α : Type} (m₁ m₂ : List (Key × α))
    (hk : m₁.map Prod.fst = m₂.map Prod.fst)
    (hnd : (m₁.map Prod.fst).Nodup)
    (hl : ∀ k, lookupKey m₁ k = lookupKey m₂ k) : m₁ = m₂ := by
  induction m₁ generalizing m₂ with
  | nil =>
      cases m₂ with
      | nil => rfl
      | cons hd tl => simp at hk
  | cons hd₁ tl₁ ih =>
      obtain ⟨k₁, v₁⟩ := hd₁
      cases m₂ with
      | nil => simp at hk
      | cons hd₂ tl₂ =>
          obtain ⟨k₂, v₂⟩ := hd₂
          have hkk : k₁ = k₂ ∧ tl₁.map Prod.fst = tl₂.map Prod.fst := by
            simpa using hk
          obtain ⟨rfl, htl⟩ := hkk
          have hv : v₁ = v₂ := by
            have := hl k₁
            simpa [lookupKey] using this
          subst hv
          have hnotmem : k₁ ∉ tl₁.map Prod.fst := (List.nodup_cons.mp hnd).1
          have hndtl : (tl₁.map Prod.fst).Nodup := (List.nodup_cons.mp hnd).2
          have htlook : ∀ k, lookupKey tl₁ k = lookupKey tl₂ k := by
            intro k
            by_cases hkeq : k₁ = k
            · subst hkeq
              rw [lookupKey_eq_none_of_not_mem tl₁ k₁ hnotmem,
                lookupKey_eq_none_of_not_mem tl₂ k₁ (htl ▸ hnotmem)]
            · have := hl k
              simpa [lookupKey, hkeq] using this
          rw [ih tl₂ htl hndtl htlook]

/-- The key sequence of an absorbing fold depends only on the key
sequences involved. -/
def keySeqAbsorb (ks : List Key) : List Key → List Key
  | [] => ks
  | k :: rest => keySeqAbsorb (if k ∈ ks then ks else ks ++ [k]) rest

theorem keys_absorbAll_eq (m : List (Key × PropMeta)) (l : List PropMeta) :
    (absorbAll m l).map Prod.fst
      = keySeqAbsorb (m.map Prod.fst) (l.map (fun p => p.propertyKey)) := by
  induction l generalizing m with
  | nil => rfl
  | cons p rest ih =>
      rw [absorbAll_cons, ih]
      show _ = keySeqAbsorb _ _
      rw [keys_absorb]
      rfl

theorem valuesKeys_of_keyedInv (m : List (Key × PropMeta)) (h : KeyedInv m) :
    (m.map Prod.snd).map (fun p => p.propertyKey) = m.map Prod.fst := by
  induction m with
  | nil => rfl
  | cons hd tl ih =>
      obtain ⟨k₀, v₀⟩ := hd
      have hv : v₀.propertyKey = k₀ := h _ (List.mem_cons_self _ _)
      have htl : KeyedInv tl := fun kv hkv => h kv (List.mem_cons_of_mem _ hkv)
      simp [hv, ih htl]

theorem lookupKey_isSome_of_mem {α : Type} (m : List (Key × α)) (k : Key)
    (h : k ∈ m.map Prod.fst) : ∃ v, lookupKey m k = some v := by
  induction m with
  | nil => simp at h
  | cons hd tl ih =>
      obtain ⟨k₀, v₀⟩ := hd
      by_cases h0 : k₀ = k
      · exact ⟨v₀, by simp [lookupKey, h0]⟩
      · have hcons : k ∈ k₀ :: tl.map Prod.fst := by simpa using h
        have : k ∈ tl.map Prod.fst := by
          rcases List.mem_cons.mp hcons with hc | hc
          · exact absurd hc.symm h0
          · exact hc
        rcases ih this with ⟨v, hv⟩
        exact ⟨v, by simp [lookupKey, h0, hv]⟩

theorem lookupKey_mem_pair {α : Type} (m : List (Key × α)) (k : Key) (v : α)
    (h : lookupKey m k = some v) : (k, v) ∈ m := by
  induction m with
  | nil => simp [lookupKey] at h
  | cons hd tl ih =>
      obtain ⟨k₀, v₀⟩ := hd
      by_cases h0 : k₀ = k
      · subst h0
        have hh : some v₀ = some v := by simpa [lookupKey] using h
        cases hh
        exact List.mem_cons_self _ _
      · simp only [lookupKey, if_neg h0] at h
        exact List.mem_cons_of_mem _ (ih h)

theorem filter_values_setKey_ne (m : List (Key × PropMeta)) (k k' : Key) (v : PropMeta)
    (hinv : KeyedInv m) (hv : v.propertyKey = k) (hne : k' ≠ k) :
    ((setKey m k v).map Prod.snd).filter (fun p => p.propertyKey == k')
      = (m.map Prod.snd).filter (fun p => p.propertyKey == k') := by
  have hne' : ¬ k = k' := fun h => hne h.symm
  induction m with
  | nil =>
      have : ¬ (v.propertyKey == k') = true := by simp [hv, hne']
      simp [setKey, this]
  | cons hd tl ih =>
      obtain ⟨k₀, v₀⟩ := hd
      have hv₀ : v₀.propertyKey = k₀ := hinv _ (List.mem_cons_self _ _)
      have htl : KeyedInv tl := fun kv hkv => hinv kv (List.mem_cons_of_mem _ hkv)
      by_cases h0 : k₀ = k
      · subst h0
        have hvdrop : ¬ (v.propertyKey == k') = true := by simp [hv, hne']
        have hv₀drop : ¬ (v₀.propertyKey == k') = true := by simp [hv₀, hne']
        simp [setKey, List.filter_cons, hvdrop, hv₀drop]
      · simp [setKey, h0, List.filter_cons, ih htl]

/-- Absorbing the values of an updated map equals updating after
absorbing: the key composition step behind `defineSchema`'s
equivalence with repeated decorator registration. -/
theorem absorbAll_values_absorb (m₀ S : List (Key × PropMeta)) (p : PropMeta)
    (hnd₀ : (m₀.map Prod.fst).Nodup)
    (hS : KeyedInv S) (hndS : (S.map Prod.fst).Nodup) :
    absorbAll m₀ ((absorb S p).map Prod.snd)
      = absorb (absorbAll m₀ (S.map Prod.snd)) p := by
  by_cases hmem : p.propertyKey ∈ S.map Prod.fst
  · have hinv' : KeyedInv (absorb S p) := keyedInv_absorb _ _ hS
    have hnd' : ((absorb S p).map Prod.fst).Nodup := nodup_keys_setKey _ _ _ hndS
    have hkeys' : (absorb S p).map Prod.fst = S.map Prod.fst := by
      rw [keys_absorb, if_pos hmem]
    apply assoc_ext
    · -- key sequences agree
      rw [keys_absorbAll_eq, valuesKeys_of_keyedInv _ hinv', hkeys',
        ← valuesKeys_of_keyedInv _ hS, ← keys_absorbAll_eq]
      have hmemA : p.propertyKey ∈ (absorbAll m₀ (S.map Prod.snd)).map Prod.fst := by
        rw [mem_keys_absorbAll]
        rcases lookupKey_isSome_of_mem S p.propertyKey hmem with ⟨v, hv⟩
        have hpair : (p.propertyKey, v) ∈ S := lookupKey_mem_pair S _ v hv
        exact Or.inr ⟨v, List.mem_map.mpr ⟨(p.propertyKey, v), hpair, rfl⟩, hS _ hpair⟩
      rw [keys_absorb, if_pos hmemA]
    · exact nodup_keys_absorbAll _ _ hnd₀
    · intro k'
      by_cases hk : k' = p.propertyKey
      · subst hk
        rcases lookupKey_isSome_of_mem S p.propertyKey hmem with ⟨vk, hvk⟩
        rw [lookupKey_absorbAll, filter_values_eq_lookup _ _ hinv' hnd',
          lookupKey_absorb_self, hvk]
        rw [lookupKey_absorb_self, lookupKey_absorbAll,
          filter_values_eq_lookup _ _ hS hndS, hvk]
        show mergeFold _ [(vk.merge p)] = some (mergeUnder (mergeFold _ [vk]) p)
        show some (mergeUnder _ (vk.merge p)) = some (mergeUnder (some (mergeUnder _ vk)) p)
        rw [mergeUnder_merge]
      · rw [lookupKey_absorbAll, lookupKey_absorb_ne _ _ _ hk, lookupKey_absorbAll]
        unfold absorb
        rw [filter_values_setKey_ne _ _ _ _ hS (mergeUnder_propertyKey _ _) hk]
  · have hlook : lookupKey S p.propertyKey = none :=
      lookupKey_eq_none_of_not_mem _ _ hmem
    have : absorb S p = S ++ [(p.propertyKey, p)] := by
      unfold absorb
      rw [hlook]
      exact setKey_append_of_not_mem _ _ _ hmem
    rw [this]
    rw [List.map_append, absorbAll_append]
    rfl

/-- `absorbAll` over the stored result of `defineSchema` equals
`absorbAll` over the concatenation of the prior own metadata and the
definition entries. -/
theorem absorbAll_defineSchemaStore (m₀ : List (Key × PropMeta)) (own defn : List PropMeta)
    (hnd₀ : (m₀.map Prod.fst).Nodup)
    (hown : (own.map (fun p => p.propertyKey)).Nodup) :
    absorbAll m₀ (defineSchemaStore own defn) = absorbAll m₀ (own ++ defn) := by
  unfold defineSchemaStore
  rw [plainSetAll_eq_pairList own hown]
  induction defn using List.reverseRecOn with
  | nil => simp [absorbAll_nil, pairList_map_snd]
  | append_singleton l a ih =>
      have hinvS : KeyedInv (absorbAll (pairList own) l) :=
        keyedInv_absorbAll _ _ (keyedInv_pairList own)
      have hndS : ((absorbAll (pairList own) l).map Prod.fst).Nodup := by
        refine nodup_keys_absorbAll _ _ ?_
        rw [pairList_map_fst]
        exact hown
      calc absorbAll m₀ ((absorbAll (pairList own) (l ++ [a])).map Prod.snd)
      _ = absorbAll m₀ ((absorb (absorbAll (pairList own) l) a).map Prod.snd) := by
            rw [absorbAll_append]
            rfl
      _ = absorb (absorbAll m₀ ((absorbAll (pairList own) l).map Prod.snd)) a :=
            absorbAll_values_absorb _ _ _ hnd₀ hinvS hndS
      _ = absorb (absorbAll m₀ (own ++ l)) a := by rw [ih]
      _ = absorbAll m₀ (own ++ (l ++ [a])) := by
            rw [← List.append_assoc, absorbAll_append m₀ (own ++ l) [a]]
            rfl

theorem decorator_foldl (own defn : List PropMeta) :
    defn.foldl databaseSchemaDecorator own = own ++ defn := by
  induction defn generalizing own with
  | nil => simp
  | cons p rest ih => simp [databaseSchemaDecorator, ih]

theorem getOwnMetadata_update_self (reg : Registry) (c : ClassId) (A : List PropMeta) :
    getOwnMetadata { reg with reflectStore := setKey reg.reflectStore c A } c = some A :=
  lookupKey_setKey_self _ _ _

theorem getOwnMetadata_update_other (reg : Registry) (c e : ClassId) (A : List PropMeta)
    (h : e ≠ c) :
    getOwnMetadata { reg with reflectStore := setKey reg.reflectStore c A } e
      = getOwnMetadata reg e :=
  lookupKey_setKey_ne _ _ _ _ h

theorem getDomainSchemaMetadata_update (reg : Registry) (c e : ClassId)
    (A : List PropMeta) :
    getDomainSchemaMetadata { reg with reflectStore := setKey reg.reflectStore c A } e
      = getDomainSchemaMetadata reg e := rfl

/-- `levelMeta` of an updated reflect-store entry. -/
theorem levelMeta_update (reg : Registry) (c : ClassId) (A : List PropMeta) :
    levelMeta { reg with reflectStore := setKey reg.reflectStore c A } c
      = (absorbAll (plainSetAll [] (getDomainSchemaMetadata reg c)) A).map Prod.snd := by
  unfold levelMeta
  rw [getOwnMetadata_update_self, getDomainSchemaMetadata_update]

theorem levelMeta_update_other (reg : Registry) (c e : ClassId) (A : List PropMeta)
    (h : e ≠ c) :
    levelMeta { reg with reflectStore := setKey reg.reflectStore c A } e
      = levelMeta reg e := by
  unfold levelMeta
  rw [getOwnMetadata_update_other _ _ _ _ h, getDomainSchemaMetadata_update]

/-- C9.  Registering a whole property map at once with
`defineSchema(target, map)` and registering each `(key, options)` pair
individually with the `@DatabaseSchema` decorator, in the same order,
produce exactly the same merged descriptor (for any prior own metadata
without duplicate keys, in particular for an unregistered class). -/
theorem C9_defineSchema_equiv_decorators (reg : Registry) (CT : ClassTable)
    (c : ClassId) (own defn : List PropMeta)
    (hown : (own.map (fun p => p.propertyKey)).Nodup) :
    getDatabaseSchemaMetadata
      { reg with reflectStore := setKey reg.reflectStore c (defineSchemaStore own defn) }
      CT c
    = getDatabaseSchemaMetadata
      { reg with
        reflectStore := setKey reg.reflectStore c (defn.foldl databaseSchemaDecorator own) }
      CT c := by
  rw [decorator_foldl]
  unfold getDatabaseSchemaMetadata
  have hmap : (CT c).protoChain.map
      (levelMeta { reg with reflectStore := setKey reg.reflectStore c (defineSchemaStore own defn) })
    = (CT c).protoChain.map
      (levelMeta { reg with reflectStore := setKey reg.reflectStore c (own ++ defn) }) := by
    apply List.map_congr_left
    intro e _
    by_cases he : e = c
    · subst he
      rw [levelMeta_update, levelMeta_update]
      rw [absorbAll_defineSchemaStore _ _ _
        (nodup_keys_plainSetAll _ _ (by simp)) hown]
    · rw [levelMeta_update_other _ _ _ _ he, levelMeta_update_other _ _ _ _ he]
  rw [hmap]

def c9Defn : List PropMeta :=
  [ { propertyKey := "title", type := some .str },
    { propertyKey := "count", type := some .num, optional := some true },
    { propertyKey := "owner",
      relationship := some { rtype := "OWNED_BY", target := .lazy "UserW" "target",
                             cardinality := some .manyToOne } } ]

/-- Witness for C9: bulk and per-property registration of a three-entry
definition on a pristine class agree. -/
theorem C9_defineSchema_equiv_decorators_witness :
    (([] : List PropMeta).map (fun p => p.propertyKey)).Nodup
    ∧ getDatabaseSchemaMetadata
        { c1Reg with reflectStore := setKey c1Reg.reflectStore "FreshW" (defineSchemaStore [] c9Defn) }
        c1CT "FreshW"
      = getDatabaseSchemaMetadata
        { c1Reg with
          reflectStore := setKey c1Reg.reflectStore "FreshW"
            (c9Defn.foldl databaseSchemaDecorator []) }
        c1CT "FreshW" :=
  ⟨by decide, C9_defineSchema_equiv_decorators c1Reg c1CT "FreshW" [] c9Defn (by decide)⟩

/-! ## C2: the recursion depth limit (document and relational compilers) -/

/-- The `DeepEntity` test class: a self-referential embedded property
(`child: DeepEntity`). -/
def deepCT : ClassTable := fun c =>
  if c = "DeepEntity" then
    { name := "DeepEntity", kind := .entity, protoChain := ["DeepEntity", "Entity"] }
  else { name := "Entity", kind := .plain, protoChain := ["Entity"] }

def deepReg : Registry :=
  { reflectStore :=
      [ ("DeepEntity",
          [ { propertyKey := "id", type := some .uid, unique := some true },
            { propertyKey := "name", type := some .str },
            { propertyKey := "child", type := some (.cls "DeepEntity"),
              optional := some true } ]) ]
    domainEntity := DOMAIN_ENTITY_META
    domainEnum := DOMAIN_ENUM_META }

/-- C2.  Recursion is bounded at the limit 5: for every class, compiling
at any depth beyond the limit returns the empty placeholder schema (no
fields, no columns) in both the document and the relational compiler;
and for the self-referential `DeepEntity`, compiling at the limit
(depth 5) yields a non-empty schema whose self-referential property is
the empty placeholder, while compiling at depth 6 yields the empty
placeholder itself. -/
theorem C2_recursion_depth_limit (reg : Registry) (CT : ClassTable) (c : ClassId)
    (d : Nat) (hd : 5 < d) :
    (mongoExtract reg CT (some c) d = emptyMSchema
      ∧ pgGetTypeOrmEntity reg CT (some c) d
          = { name := "EmptyEntity", columns := [] }
      ∧ pgExtract reg CT (some c) d = { name := "EmptyEntity", columns := [] })
    ∧ (0 < (mongoExtract deepReg deepCT (some "DeepEntity") 5).obj.length
      ∧ ((lookupKey (mongoExtract deepReg deepCT (some "DeepEntity") 5).obj
            "child").map MField.core = some (.schema emptyMSchema)
      ∧ mongoExtract deepReg deepCT (some "DeepEntity") 6 = emptyMSchema))
    ∧ (0 < (pgGetTypeOrmEntity deepReg deepCT (some "DeepEntity") 5).columns.length
      ∧ lookupKey (pgGetTypeOrmEntity deepReg deepCT (some "DeepEntity") 5).columns
            "child" = some { ctype := some .jsonb, nullable := some true }
      ∧ pgGetTypeOrmEntity deepReg deepCT (some "DeepEntity") 6
          = { name := "EmptyEntity", columns := [] }) := by
  refine ⟨⟨?_, ?_, ?_⟩, ⟨?_, ?_, ?_⟩, ⟨?_, ?_, ?_⟩⟩
  · unfold mongoExtract
    have hb : 6 - d = 0 := by omega
    rw [hb]
    simp [mongoExtractB]
  · unfold pgGetTypeOrmEntity
    simp [hd]
  · unfold pgExtract
    simp [hd]
  · decide
  · rfl
  · rfl
  · decide
  · rfl
  · rfl

/-- Witness for C2 at depth 6. -/
theorem C2_recursion_depth_limit_witness :
    5 < 6
    ∧ ((mongoExtract deepReg deepCT (some "DeepEntity") 6 = emptyMSchema
      ∧ pgGetTypeOrmEntity deepReg deepCT (some "DeepEntity") 6
          = { name := "EmptyEntity", columns := [] }
      ∧ pgExtract deepReg deepCT (some "DeepEntity") 6
          = { name := "EmptyEntity", columns := [] })
    ∧ (0 < (mongoExtract deepReg deepCT (some "DeepEntity") 5).obj.length
      ∧ ((lookupKey (mongoExtract deepReg deepCT (some "DeepEntity") 5).obj
            "child").map MField.core = some (.schema emptyMSchema)
      ∧ mongoExtract deepReg deepCT (some "DeepEntity") 6 = emptyMSchema))
    ∧ (0 < (pgGetTypeOrmEntity deepReg deepCT (some "DeepEntity") 5).columns.length
      ∧ lookupKey (pgGetTypeOrmEntity deepReg deepCT (some "DeepEntity") 5).columns
            "child" = some { ctype := some .jsonb, nullable := some true }
      ∧ pgGetTypeOrmEntity deepReg deepCT (some "DeepEntity") 6
          = { name := "EmptyEntity", columns := [] })) :=
  ⟨by decide, C2_recursion_depth_limit deepReg deepCT "DeepEntity" 6 (by decide)⟩

/-! ## C3: uniqueness constraints from `unique` and `isIdentifier` -/

/-- A class whose only property is marked `isIdentifier` (without
`unique`). -/
def c3CT : ClassTable := fun _ =>
  { name := "IdOnlyW", kind := .plain, protoChain := ["IdOnlyW"] }

def c3Reg : Registry :=
  { reflectStore :=
      [ ("IdOnlyW",
          [ { propertyKey := "ident", type := some .str, isIdentifier := some true } ]) ]
    domainEntity := DOMAIN_ENTITY_META
    domainEnum := DOMAIN_ENUM_META }

/-- Counterexample to C3 as stated: for a descriptor with
`isIdentifier = true` (and `unique` unset) the document compiler emits
its field with no uniqueness marking at all (`unique` stays absent),
contradicting "each of the three backend compilers emits a uniqueness
constraint". -/
theorem C3_counterexample :
    (getDatabaseSchemaMetadata c3Reg c3CT "IdOnlyW").find?
        (fun p => p.propertyKey == "ident")
      = some { propertyKey := "ident", type := some .str, isIdentifier := some true }
    ∧ (lookupKey (mongoExtract c3Reg c3CT (some "IdOnlyW") 0).obj "ident").map
        MField.unique = some none :=
  ⟨rfl, rfl⟩

/-- C3 as amended.  A `unique = true` descriptor is compiled with a
uniqueness flag by all three backends; an `isIdentifier = true`
descriptor is compiled with a primary-key flag by the relational
compiler (and additionally a unique flag in its `extract` variant), and
the first identifier descriptor is forced `unique` by the graph
compiler's post-processing — but the document compiler derives no
uniqueness marking from `isIdentifier` alone. -/
theorem C3_amended_uniqueness (reg : Registry) (CT : ClassTable)
    (sub : ClassId → MSchema) (idU : Bool) (p q : PropMeta)
    (metadata : List PropMeta) (props : List (Key × NeoProp)) (idp : PropMeta)
    (hu : p.unique = some true) (hq : q.isIdentifier = some true)
    (hfind : metadata.find? (fun r => r.isIdentifier == some true) = some idp) :
    (mongoFieldB CT sub p).unique = some true
    ∧ (pgColumnFor CT idU p).unique = some true
    ∧ (neoPropFor reg CT p).unique = some true
    ∧ (pgColumnFor CT idU q).primary = some true
    ∧ (pgColumnFor CT true q).unique = some true
    ∧ (lookupKey (neoFixIdentifier metadata props) idp.propertyKey).map
        (fun r => r.unique) = some (some true)
    ∧ (mongoFieldB CT sub { q with unique := none }).unique = none := by
  refine ⟨?_, ?_, ?_, ?_, ?_, ?_, ?_⟩
  · simp [mongoFieldB, MField.unique, hu]
  · simp only [pgColumnFor, hu]
    split <;> rfl
  · simp [neoPropFor, hu]
  · simp [pgColumnFor, hq]
  · simp [pgColumnFor, hq]
  · unfold neoFixIdentifier
    rw [hfind, lookupKey_setKey_self]
    rfl
  · simp [mongoFieldB, MField.unique]

def c3P : PropMeta := { propertyKey := "email", type := some .str, unique := some true }

def c3Q : PropMeta := { propertyKey := "ident", type := some .str, isIdentifier := some true }

/-- Witness for the amended C3 at concrete descriptors. -/
theorem C3_amended_uniqueness_witness :
    (c3P.unique = some true ∧ c3Q.isIdentifier = some true
      ∧ [c3Q].find? (fun r => r.isIdentifier == some true) = some c3Q)
    ∧ ((mongoFieldB c3CT (fun _ => emptyMSchema) c3P).unique = some true
    ∧ (pgColumnFor c3CT false c3P).unique = some true
    ∧ (neoPropFor c3Reg c3CT c3P).unique = some true
    ∧ (pgColumnFor c3CT false c3Q).primary = some true
    ∧ (pgColumnFor c3CT true c3Q).unique = some true
    ∧ (lookupKey (neoFixIdentifier [c3Q] []) c3Q.propertyKey).map
        (fun r => r.unique) = some (some true)
    ∧ (mongoFieldB c3CT (fun _ => emptyMSchema) { c3Q with unique := none }).unique = none) :=
  ⟨⟨by decide, by decide, by decide⟩,
    C3_amended_uniqueness c3Reg c3CT (fun _ => emptyMSchema) false c3P c3Q [c3Q] [] c3Q
      (by decide) (by decide) (by decide)⟩

/-! ## C4: relationship properties in the document compiler -/

def c4CT : ClassTable := fun c =>
  if c = "UserVO" then
    { name := "UserVO", kind := .valueObject, protoChain := ["UserVO", "ValueObject"] }
  else { name := "PostW", kind := .entity, protoChain := ["PostW", "Entity"] }

def c4Rel : RelOptions :=
  { rtype := "AUTHORED_BY", target := .lazy "UserVO" "target"
    cardinality := some .manyToMany }

def c4Reg : Registry :=
  { reflectStore :=
      [ ("UserVO", [ { propertyKey := "name", type := some .str } ]),
        ("PostW",
          [ { propertyKey := "authors", type := some (.arr (.cls "UserVO")),
              relationship := some c4Rel },
            { propertyKey := "orders", relationship := some c4Rel } ]) ]
    domainEntity := DOMAIN_ENTITY_META
    domainEnum := DOMAIN_ENUM_META }

/-- The compiled sub-schema of `UserVO` at depth 1. -/
def c4UserSchema : MSchema :=
  MSchema.mk [("name", MField.mk (.typed .str) none none none none)] false

/-- Counterexample to C4 as stated: a relationship property whose
declared type is an array of an embeddable `ValueObject` class compiles
to an array of embedded sub-document schemas — the inference chain
(lines 87–147, a fresh `if` after the relationship branch) overwrites
the `{type: [String]}` reference list — contradicting "a reference list
… and never an embedded sub-document schema, regardless of the
property's declared type". -/
theorem C4_counterexample :
    (lookupKey (mongoExtract c4Reg c4CT (some "PostW") 0).obj "authors").map
        MField.core = some (.bareArrSchema c4UserSchema)
    ∧ MCore.bareArrSchema c4UserSchema ≠ MCore.typedArrStr :=
  ⟨rfl, by intro h; cases h⟩

/-- C4 as amended.  A relationship property compiles to the
`{type: [String]}` reference list only when no inference branch fires
(in particular when the property declares no type, the common case);
when its declared type is an array of an embeddable Entity/ValueObject
class, the pre-processing plus inference replace the reference list
with an array of embedded sub-document schemas. -/
theorem C4_amended_relationship_reference (CT : ClassTable) (sub : ClassId → MSchema)
    (p : PropMeta) (r : RelOptions) (c0 : ClassId)
    (hrel : p.relationship = some r) :
    (p.type = none → (mongoFieldB CT sub p).core = .typedArrStr)
    ∧ (p.type = some (.arr (.cls c0)) → isEmbeddableKind CT c0 = true →
        (mongoFieldB CT sub p).core = .bareArrSchema (sub c0)) := by
  constructor
  · intro ht
    simp [mongoFieldB, MField.core, hrel, ht]
  · intro ht hemb
    simp [mongoFieldB, MField.core, hrel, ht, hemb]

/-- Witness for the amended C4: the relationship-only property `orders`
compiles to the reference list, the typed relationship property
`authors` to an embedded sub-schema array. -/
theorem C4_amended_relationship_reference_witness :
    ({ propertyKey := "orders", relationship := some c4Rel : PropMeta}.relationship
        = some c4Rel)
    ∧ (({ propertyKey := "orders", relationship := some c4Rel : PropMeta}.type = none →
        (mongoFieldB c4CT (fun c0 => mongoExtractB c4Reg c4CT (some c0) 5)
          { propertyKey := "orders", relationship := some c4Rel }).core = .typedArrStr)
    ∧ ({ propertyKey := "orders", relationship := some c4Rel : PropMeta}.type
          = some (.arr (.cls "UserVO")) →
        isEmbeddableKind c4CT "UserVO" = true →
        (mongoFieldB c4CT (fun c0 => mongoExtractB c4Reg c4CT (some c0) 5)
          { propertyKey := "orders", relationship := some c4Rel }).core
          = .bareArrSchema (mongoExtractB c4Reg c4CT (some "UserVO") 5))) :=
  ⟨by decide,
    C4_amended_relationship_reference c4CT
      (fun c0 => mongoExtractB c4Reg c4CT (some c0) 5)
      { propertyKey := "orders", relationship := some c4Rel } c4Rel "UserVO" (by decide)⟩

/-! ## C5: relationship properties in the relational compiler -/

theorem pgExtract_fold_no_column (CT : ClassTable) (metas : List PropMeta)
    (st0 : List (Key × PgColumn) × List (Key × PgRelation)) (k : Key)
    (h0 : k ∉ st0.1.map Prod.fst)
    (hm : ∀ p ∈ metas, pgFinalKey p = k → p.relationship.isSome) :
    k ∉ (metas.foldl (pgExtractStep CT) st0).1.map Prod.fst := by
  induction metas generalizing st0 with
  | nil => exact h0
  | cons p rest ih =>
      have hrest : ∀ q ∈ rest, pgFinalKey q = k → q.relationship.isSome := by
        intro q hq
        exact hm q (List.mem_cons_of_mem _ hq)
      refine ih _ ?_ hrest
      cases hrel : p.relationship with
      | some r =>
          cases hpr : pgRelationFor r with
          | some rel => simpa [pgExtractStep, hrel, hpr] using h0
          | none => simpa [pgExtractStep, hrel, hpr] using h0
      | none =>
          have hk : pgFinalKey p ≠ k := by
            intro hcon
            have := hm p (List.mem_cons_self _ _) hcon
            rw [hrel] at this
            simp at this
          simp only [pgExtractStep, hrel]
          rw [mem_keys_setKey]
          rintro (hmem | rfl)
          · exact h0 hmem
          · exact hk rfl

theorem pgTypeOrm_fold_no_column (CT : ClassTable) (metas : List PropMeta)
    (cols0 : List (Key × PgColumn)) (k : Key)
    (h0 : k ∉ cols0.map Prod.fst)
    (hm : ∀ p ∈ metas, p.propertyKey = k → p.relationship.isSome) :
    k ∉ (metas.foldl (pgTypeOrmStep CT) cols0).map Prod.fst := by
  induction metas generalizing cols0 with
  | nil => exact h0
  | cons p rest ih =>
      have hrest : ∀ q ∈ rest, q.propertyKey = k → q.relationship.isSome := by
        intro q hq
        exact hm q (List.mem_cons_of_mem _ hq)
      refine ih _ ?_ hrest
      cases hrel : p.relationship with
      | some r => simpa [pgTypeOrmStep, hrel] using h0
      | none =>
          have hk : p.propertyKey ≠ k := by
            intro hcon
            have := hm p (List.mem_cons_self _ _) hcon
            rw [hrel] at this
            simp at this
          simp only [pgTypeOrmStep, hrel]
          rw [mem_keys_setKey]
          rintro (hmem | rfl)
          · exact h0 hmem
          · exact hk rfl

/-- The `Order`/`User` scenario: `Order` is related many-to-one to
`User`, owning side `Order`, join column `userId`; `User` holds the
inverse one-to-many property `orders`. -/
def c5OrderRel : RelOptions :=
  { rtype := "BELONGS_TO_USER", target := .lazy "UserW" "target"
    cardinality := some .manyToOne, owner := some true
    inverse := some "user", columns := some ["userId"]
    cascade := some ["insert", "update"] }

def c5UserRel : RelOptions :=
  { rtype := "HAS_ORDER", target := .lazy "OrderW" "target"
    direction := some .outgoing, cardinality := some .oneToMany
    owner := some false, inverse := some "user"
    cascade := some ["insert", "update", "remove"], eager := some false }

def c5CT : ClassTable := fun c =>
  if c = "OrderW" then
    { name := "OrderW", kind := .entity, protoChain := ["OrderW", "Entity"] }
  else if c = "UserW" then
    { name := "UserW", kind := .entity, protoChain := ["UserW", "Entity"] }
  else { name := "Entity", kind := .plain, protoChain := ["Entity"] }

def c5Reg : Registry :=
  { reflectStore :=
      [ ("OrderW",
          [ { propertyKey := "id", type := some .uid, unique := some true,
              isIdentifier := some true },
            { propertyKey := "amount", type := some .num },
            { propertyKey := "userId", type := some .uid },
            { propertyKey := "user", relationship := some c5OrderRel } ]),
        ("UserW",
          [ { propertyKey := "id", type := some .uid, unique := some true,
              isIdentifier := some true },
            { propertyKey := "username", type := some .str },
            { propertyKey := "orders", relationship := some c5UserRel } ]) ]
    domainEntity := DOMAIN_ENTITY_META
    domainEnum := DOMAIN_ENUM_META }

/-- C5.  A relationship property compiles to a relation descriptor and
no column: the declared cardinality maps directly to the relation kind;
an owning many-to-one side with declared join columns carries
`joinColumn = {name: columns[0]}`; any key whose descriptors are all
relationship-marked yields no column in either relational variant.  At
the `Order`/`User` scenario: compiling `Order` yields a many-to-one
relation with the declared join column and no `user` column, and
compiling `User` yields no column for `orders` (in both variants) while
its inverse side is the one-to-many relation. -/
theorem C5_relational_relationship (r : RelOptions) (card : Cardinality)
    (reg : Registry) (CT : ClassTable) (c : ClassId) (d : Nat) (k : Key)
    (hcard : r.cardinality = some card)
    (hseed : k ∉ (pgSeedColumns CT c).map Prod.fst)
    (hrels : ∀ p ∈ getDatabaseSchemaMetadata reg CT c,
      pgFinalKey p = k → p.relationship.isSome)
    (hrels' : ∀ p ∈ getDatabaseSchemaMetadata reg CT c,
      p.propertyKey = k → p.relationship.isSome) :
    (pgRelationFor r).map PgRelation.rkind = some card
    ∧ (r.owner = some true → r.cardinality = some .manyToOne →
        ∀ cs, r.columns = some cs →
        (pgRelationFor r).map PgRelation.joinColumn
          = some (some (.named cs.head?)))
    ∧ lookupKey (pgExtract reg CT (some c) d).columns k = none
    ∧ lookupKey (pgGetTypeOrmEntity reg CT (some c) d).columns k = none
    ∧ lookupKey (pgExtract c5Reg c5CT (some "OrderW") 0).relations "user"
        = some { target := .lazy "UserW" "target", inverseSide := some "user"
                 cascade := some ["insert", "update"], eager := none
                 rkind := .manyToOne, joinColumn := some (.named (some "userId")) }
    ∧ lookupKey (pgExtract c5Reg c5CT (some "OrderW") 0).columns "user" = none
    ∧ lookupKey (pgExtract c5Reg c5CT (some "UserW") 0).columns "orders" = none
    ∧ lookupKey (pgGetTypeOrmEntity c5Reg c5CT (some "UserW") 0).columns "orders" = none
    ∧ (lookupKey (pgExtract c5Reg c5CT (some "UserW") 0).relations "orders").map
        PgRelation.rkind = some .oneToMany := by
  refine ⟨?_, ?_, ?_, ?_, by decide, by decide, by decide, by decide, by decide⟩
  · cases card <;> simp [pgRelationFor, hcard]
  · intro hown hm2o cs hcs
    simp [pgRelationFor, hm2o, hown, hcs]
  · unfold pgExtract
    by_cases hd : d > 5
    · simp [hd, lookupKey]
    · simp only [hd, if_neg]
      exact lookupKey_eq_none_of_not_mem _ _
        (pgExtract_fold_no_column CT _ _ k hseed hrels)
  · unfold pgGetTypeOrmEntity
    by_cases hd : d > 5
    · simp [hd, lookupKey]
    · simp only [hd, if_neg]
      exact lookupKey_eq_none_of_not_mem _ _
        (pgTypeOrm_fold_no_column CT _ _ k hseed hrels')

/-- Witness for C5 at the scenario's `User` class and key `orders`. -/
theorem C5_relational_relationship_witness :
    (c5UserRel.cardinality = some Cardinality.oneToMany
      ∧ "orders" ∉ (pgSeedColumns c5CT "UserW").map Prod.fst
      ∧ (∀ p ∈ getDatabaseSchemaMetadata c5Reg c5CT "UserW",
          pgFinalKey p = "orders" → p.relationship.isSome)
      ∧ (∀ p ∈ getDatabaseSchemaMetadata c5Reg c5CT "UserW",
          p.propertyKey = "orders" → p.relationship.isSome))
    ∧ ((pgRelationFor c5UserRel).map PgRelation.rkind = some Cardinality.oneToMany
    ∧ (c5UserRel.owner = some true → c5UserRel.cardinality = some .manyToOne →
        ∀ cs, c5UserRel.columns = some cs →
        (pgRelationFor c5UserRel).map PgRelation.joinColumn
          = some (some (.named cs.head?)))
    ∧ lookupKey (pgExtract c5Reg c5CT (some "UserW") 0).columns "orders" = none
    ∧ lookupKey (pgGetTypeOrmEntity c5Reg c5CT (some "UserW") 0).columns "orders" = none
    ∧ lookupKey (pgExtract c5Reg c5CT (some "OrderW") 0).relations "user"
        = some { target := .lazy "UserW" "target", inverseSide := some "user"
                 cascade := some ["insert", "update"], eager := none
                 rkind := .manyToOne, joinColumn := some (.named (some "userId")) }
    ∧ lookupKey (pgExtract c5Reg c5CT (some "OrderW") 0).columns "user" = none
    ∧ lookupKey (pgExtract c5Reg c5CT (some "UserW") 0).columns "orders" = none
    ∧ lookupKey (pgGetTypeOrmEntity c5Reg c5CT (some "UserW") 0).columns "orders" = none
    ∧ (lookupKey (pgExtract c5Reg c5CT (some "UserW") 0).relations "orders").map
        PgRelation.rkind = some .oneToMany) :=
  ⟨⟨by decide, by decide, by decide, by decide⟩,
    C5_relational_relationship c5UserRel .oneToMany c5Reg c5CT "UserW" 0 "orders"
      (by decide) (by decide) (by decide) (by decide)⟩

/-! ## C6: explicit enum lists vs. inferred enumeration values -/

def neoPropsOf (d : NeoSchemaDef) : List (Key × NeoProp) :=
  match d.nodes with
  | [n] => n.properties
  | _ => []

def c6CT : ClassTable := fun _ =>
  { name := "EnumW", kind := .plain, protoChain := ["EnumW"] }

def c6Reg : Registry :=
  { reflectStore :=
      [ ("EnumW",
          [ { propertyKey := "status",
              type := some (.tsEnum [.s "A", .s "B", .s "C"]),
              enum := some [.s "A", .s "B"] } ]) ]
    domainEntity := DOMAIN_ENTITY_META
    domainEnum := DOMAIN_ENUM_META }

/-- Counterexample to C6 as stated: for a descriptor with declared type
a TypeScript enum object (values `A,B,C`) and an explicit enum option
`[A,B]`, the graph compiler emits the inferred `Object.values` list
`[A,B,C]` — its TypeScript-enum branch assigns
`propertyOptions.enum = enumValues` unconditionally, clobbering the
explicit list — so not every backend emits exactly the explicit list. -/
theorem C6_counterexample :
    (getDatabaseSchemaMetadata c6Reg c6CT "EnumW").find?
        (fun p => p.propertyKey == "status")
      = some { propertyKey := "status",
               type := some (.tsEnum [.s "A", .s "B", .s "C"]),
               enum := some [.s "A", .s "B"] }
    ∧ (lookupKey (neoPropsOf (neoExtractSchema c6Reg c6CT "EnumW")) "status").map
        (fun pr => pr.enum) = some (some [.s "A", .s "B", .s "C"])
    ∧ (some [EnumVal.s "A", .s "B", .s "C"] : Option (List EnumVal))
        ≠ some [EnumVal.s "A", .s "B"] := by
  refine ⟨by decide, by decide, by decide⟩

/-- C6 as amended.  An explicit enum list always overrides inferred
enumeration values in the document and relational compilers, and in the
graph compiler whenever the declared type is not a non-empty TypeScript
enum object; for a non-empty TypeScript enum object the graph compiler
instead emits the inferred `Object.values` list, discarding the
explicit one. -/
theorem C6_amended_enum_override (reg : Registry) (CT : ClassTable)
    (sub : ClassId → MSchema) (idU : Bool) (p : PropMeta) (l : List EnumVal)
    (he : p.enum = some l) :
    (mongoFieldB CT sub p).enum = some l
    ∧ (pgColumnFor CT idU p).enum = some l
    ∧ (isTsEnumWithVals p.type = false → (neoPropFor reg CT p).enum = some l)
    ∧ (∀ vals, p.type = some (.tsEnum vals) → vals ≠ [] →
        (neoPropFor reg CT p).enum = some vals) := by
  refine ⟨?_, ?_, ?_, ?_⟩
  · simp [mongoFieldB, MField.enum, he]
  · simp [pgColumnFor, he]
  · intro ht
    cases hty : p.type with
    | none => simp [neoPropFor, neoEnumOut, hty, he]
    | some t =>
        cases t with
        | tsEnum vals =>
            have : vals.isEmpty := by
              by_contra hnz
              rw [hty] at ht
              simp [isTsEnumWithVals, hnz] at ht
            cases vals with
            | nil => simp [neoPropFor, neoEnumOut, hty, he]
            | cons a rest => simp [List.isEmpty] at this
        | str => simp [neoPropFor, neoEnumOut, hty, he]
        | num => simp [neoPropFor, neoEnumOut, hty, he]
        | bool => simp [neoPropFor, neoEnumOut, hty, he]
        | date => simp [neoPropFor, neoEnumOut, hty, he]
        | obj => simp [neoPropFor, neoEnumOut, hty, he]
        | uid => simp [neoPropFor, neoEnumOut, hty, he]
        | cls c0 => simp [neoPropFor, neoEnumOut, hty, he]
        | arr e => simp [neoPropFor, neoEnumOut, hty, he]
        | schemaArr => simp [neoPropFor, neoEnumOut, hty, he]
        | other => simp [neoPropFor, neoEnumOut, hty, he]
  · intro vals hty hnz
    cases vals with
    | nil => exact absurd rfl hnz
    | cons a rest => simp [neoPropFor, neoEnumOut, hty]

/-- Witness for the amended C6. -/
theorem C6_amended_enum_override_witness :
    ({ propertyKey := "status", type := some (.tsEnum [.s "A", .s "B", .s "C"]),
       enum := some [.s "A", .s "B"] : PropMeta }.enum = some [.s "A", .s "B"])
    ∧ ((mongoFieldB c6CT (fun _ => emptyMSchema)
          { propertyKey := "status", type := some (.tsEnum [.s "A", .s "B", .s "C"]),
            enum := some [.s "A", .s "B"] }).enum = some [.s "A", .s "B"]
    ∧ (pgColumnFor c6CT false
          { propertyKey := "status", type := some (.tsEnum [.s "A", .s "B", .s "C"]),
            enum := some [.s "A", .s "B"] }).enum = some [.s "A", .s "B"]
    ∧ (isTsEnumWithVals
          ({ propertyKey := "status", type := some (.tsEnum [.s "A", .s "B", .s "C"]),
             enum := some [.s "A", .s "B"] : PropMeta }).type = false →
        (neoPropFor c6Reg c6CT
          { propertyKey := "status", type := some (.tsEnum [.s "A", .s "B", .s "C"]),
            enum := some [.s "A", .s "B"] }).enum = some [.s "A", .s "B"])
    ∧ (∀ vals,
        ({ propertyKey := "status", type := some (.tsEnum [.s "A", .s "B", .s "C"]),
           enum := some [.s "A", .s "B"] : PropMeta }).type = some (.tsEnum vals) →
        vals ≠ [] →
        (neoPropFor c6Reg c6CT
          { propertyKey := "status", type := some (.tsEnum [.s "A", .s "B", .s "C"]),
            enum := some [.s "A", .s "B"] }).enum = some vals)) :=
  ⟨by decide,
    C6_amended_enum_override c6Reg c6CT (fun _ => emptyMSchema) false
      { propertyKey := "status", type := some (.tsEnum [.s "A", .s "B", .s "C"]),
        enum := some [.s "A", .s "B"] } [.s "A", .s "B"] (by decide)⟩

/-! ## C7: the graph compiler — one node, opaque embedded types,
de-duplicated relationships -/

/-- The de-duplication key of an emitted relationship descriptor, as a
function of its `(sourceLabel, type, targetLabel)` triple. -/
def relKeyOf (rel : NeoRel) : String :=
  rel.sourceLabel ++ "-" ++ rel.rtype ++ "-" ++ rel.targetLabel

theorem relKeyOf_neoRelFor (CT : ClassTable) (srcName : String) (r : RelOptions) :
    relKeyOf (neoRelFor CT srcName r) = neoRelKey CT srcName r := rfl

/-- Invariant of the graph compiler's property loop: the seen-set is
exactly the key list of the emitted relationships, those keys are
duplicate-free, the seen-set only grows, every relationship declaration
ends up represented, and every emitted relationship stems from a
declaration. -/
theorem neoFold_rel_inv (reg : Registry) (CT : ClassTable) (srcName : String)
    (metas : List PropMeta)
    (st0 : List (Key × NeoProp) × List NeoRel × List String)
    (h0 : st0.2.2 = st0.2.1.map relKeyOf) (hnd0 : st0.2.2.Nodup) :
    (metas.foldl (neoStep reg CT srcName) st0).2.2
        = (metas.foldl (neoStep reg CT srcName) st0).2.1.map relKeyOf
    ∧ (metas.foldl (neoStep reg CT srcName) st0).2.2.Nodup
    ∧ (∀ k ∈ st0.2.2, k ∈ (metas.foldl (neoStep reg CT srcName) st0).2.2)
    ∧ (∀ p ∈ metas, ∀ r, p.relationship = some r →
        neoRelKey CT srcName r ∈ (metas.foldl (neoStep reg CT srcName) st0).2.2)
    ∧ (∀ rel ∈ (metas.foldl (neoStep reg CT srcName) st0).2.1,
        rel ∈ st0.2.1 ∨ ∃ p ∈ metas, ∃ r, p.relationship = some r
          ∧ rel = neoRelFor CT srcName r) := by
  induction metas generalizing st0 with
  | nil =>
      exact ⟨h0, hnd0, fun k hk => hk, fun p hp => absurd hp (List.not_mem_nil p),
        fun rel hrel => Or.inl hrel⟩
  | cons p rest ih =>
      obtain ⟨props0, rels0, seen0⟩ := st0
      simp only at h0 hnd0
      -- analyse one step
      have hstep :
          (neoStep reg CT srcName (props0, rels0, seen0) p).2.2
              = (neoStep reg CT srcName (props0, rels0, seen0) p).2.1.map relKeyOf
          ∧ (neoStep reg CT srcName (props0, rels0, seen0) p).2.2.Nodup
          ∧ (∀ k ∈ seen0, k ∈ (neoStep reg CT srcName (props0, rels0, seen0) p).2.2)
          ∧ (∀ r, p.relationship = some r →
              neoRelKey CT srcName r ∈ (neoStep reg CT srcName (props0, rels0, seen0) p).2.2)
          ∧ (∀ rel ∈ (neoStep reg CT srcName (props0, rels0, seen0) p).2.1,
              rel ∈ rels0 ∨ ∃ r, p.relationship = some r
                ∧ rel = neoRelFor CT srcName r) := by
        cases hrel : p.relationship with
        | none =>
            refine ⟨by simpa [neoStep, hrel] using h0, by simpa [neoStep, hrel] using hnd0,
              ?_, ?_, ?_⟩
            · intro k hk
              simpa [neoStep, hrel] using hk
            · intro r hr
              cases hr
            · intro rel hrelmem
              exact Or.inl (by simpa [neoStep, hrel] using hrelmem)
        | some r =>
            by_cases hseen : neoRelKey CT srcName r ∈ seen0
            · refine ⟨by simpa [neoStep, hrel, hseen] using h0,
                by simpa [neoStep, hrel, hseen] using hnd0, ?_, ?_, ?_⟩
              · intro k hk
                simpa [neoStep, hrel, hseen] using hk
              · intro r' hr'
                cases hr'
                simp [neoStep, hrel, hseen]
              · intro rel hrelmem
                exact Or.inl (by simpa [neoStep, hrel, hseen] using hrelmem)
            · refine ⟨?_, ?_, ?_, ?_, ?_⟩
              · simp only [neoStep, hrel, if_neg hseen]
                simp [h0, relKeyOf_neoRelFor]
              · simp only [neoStep, hrel, if_neg hseen]
                refine List.Nodup.append hnd0 (List.nodup_singleton _) ?_
                intro a ha hb
                rcases List.mem_singleton.mp hb with rfl
                exact hseen ha
              · intro k hk
                simp only [neoStep, hrel, if_neg hseen]
                exact List.mem_append.mpr (Or.inl hk)
              · intro r' hr'
                cases hr'
                simp [neoStep, hrel, hseen]
              · intro rel hrelmem
                simp only [neoStep, hrel, if_neg hseen] at hrelmem
                rcases List.mem_append.mp hrelmem with hmem | hmem
                · exact Or.inl hmem
                · rcases List.mem_singleton.mp hmem with rfl
                  exact Or.inr ⟨r, rfl, rfl⟩
      obtain ⟨hs1, hs2, hs3, hs4, hs5⟩ := hstep
      have hrec := ih (neoStep reg CT srcName (props0, rels0, seen0) p) hs1 hs2
      obtain ⟨hr1, hr2, hr3, hr4, hr5⟩ := hrec
      refine ⟨hr1, hr2, ?_, ?_, ?_⟩
      · intro k hk
        exact hr3 k (hs3 k hk)
      · intro q hq r hqr
        rcases List.mem_cons.mp hq with rfl | hq
        · exact hr3 _ (hs4 r hqr)
        · exact hr4 q hq r hqr
      · intro rel hrelmem
        rcases hr5 rel hrelmem with hmem | ⟨q, hq, r', hq', heq⟩
        · rcases hs5 rel hmem with hmem' | ⟨r', hr', heq⟩
          · exact Or.inl hmem'
          · exact Or.inr ⟨p, List.mem_cons_self _ _, r', hr', heq⟩
        · exact Or.inr ⟨q, List.mem_cons_of_mem _ hq, r', hq', heq⟩

/-- C7.  The graph compiler returns exactly one node, labelled with the
class name; an embeddable (or registered) class type compiles to the
opaque `object` property type (`object[]` for arrays) rather than
further nodes; and the emitted relationship descriptors are
de-duplicated by the `(sourceLabel, type, targetLabel)` key: their keys
are pairwise distinct, every declared relationship is represented by a
descriptor with its key, and every emitted descriptor comes from some
declared relationship property. -/
theorem C7_graph_node_and_dedup (reg : Registry) (CT : ClassTable) (c : ClassId) :
    (neoExtractSchema reg CT c).nodes.length = 1
    ∧ (neoExtractSchema reg CT c).nodes.map NeoNode.label = [(CT c).name]
    ∧ (∀ c0, isEmbeddableKind CT c0 = true ∨ hasOwnReflect reg c0 = true →
        neoTypeOf reg CT (some (.cls c0)) = "object"
        ∧ neoTypeOf reg CT (some (.arr (.cls c0))) = "object[]")
    ∧ ((neoExtractSchema reg CT c).relationships.map relKeyOf).Nodup
    ∧ (∀ p ∈ getDatabaseSchemaMetadata reg CT c, ∀ r, p.relationship = some r →
        ∃ rel ∈ (neoExtractSchema reg CT c).relationships,
          relKeyOf rel = neoRelKey CT (CT c).name r)
    ∧ (∀ rel ∈ (neoExtractSchema reg CT c).relationships,
        ∃ p ∈ getDatabaseSchemaMetadata reg CT c, ∃ r,
          p.relationship = some r ∧ rel = neoRelFor CT (CT c).name r) := by
  have hinv := neoFold_rel_inv reg CT (CT c).name
    (getDatabaseSchemaMetadata reg CT c) ([], [], []) rfl List.nodup_nil
  obtain ⟨h1, h2, _, h4, h5⟩ := hinv
  refine ⟨rfl, rfl, ?_, ?_, ?_, ?_⟩
  · intro c0 hc0
    constructor
    · rcases hc0 with hc0 | hc0 <;> simp [neoTypeOf, hc0]
    · rcases hc0 with hc0 | hc0 <;> simp [neoTypeOf, hc0]
  · show ((getDatabaseSchemaMetadata reg CT c).foldl
        (neoStep reg CT (CT c).name) ([], [], [])).2.1.map relKeyOf |>.Nodup
    rw [← h1]
    exact h2
  · intro p hp r hr
    have := h4 p hp r hr
    rw [h1] at this
    rcases List.mem_map.mp this with ⟨rel, hrel, hkey⟩
    exact ⟨rel, hrel, hkey⟩
  · intro rel hrel
    rcases h5 rel hrel with hmem | ⟨p, hp, r, hpr, heq⟩
    · cases hmem
    · exact ⟨p, hp, r, hpr, heq⟩

/-! ## C8: compilation leaves the registry unchanged

Write-site analysis of the three compilers:

* `getDatabaseSchemaMetadata` builds every returned descriptor with a
  fresh `{...get(key), ...prop}` spread in its final loop, so the merged
  descriptors handed to the compilers never alias the `Reflect` store.
* `Neo4jSchema.extractSchema` writes only `propertyOptions.enum` on
  those fresh merged descriptors; `PostgresSchema` builds fresh
  `columnOptions` / `relationOptions` objects and writes nothing else.
* `MongoSchema.extract` is the one compiler that holds direct aliases
  into the registry: its `domainBaseProps` come straight from
  `DOMAIN_TYPE_MAPPINGS`, and its pre-processing (lines 70–77) assigns
  `options.type` in place.  `mongoTouch` is that in-place write; the
  registry after a (possibly recursive) compilation differs from the
  one before at most by `mongoTouch` applied to the aliased domain
  lists. -/

/-- The in-place pre-processing write of `MongoSchema.extract`
(lines 70–77) as a descriptor transformer: `[UniqueIdentifier]` becomes
`[String]`, an array of an embeddable class becomes an array holding a
compiled sub-schema, everything else is untouched. -/
def mongoTouch (CT : ClassTable) (p : PropMeta) : PropMeta :=
  match p.type with
  | some (.arr .uid) => { p with type := some (.arr .str) }
  | some (.arr (.cls c0)) =>
      if isEmbeddableKind CT c0 then { p with type := some .schemaArr } else p
  | _ => p

/-- The registry state after `MongoSchema.extract(c, depth)`: when the
property loop runs (non-null class, depth within the limit), the domain
list aliased through `domainBaseProps` has been pre-processed in
place. -/
def registryAfterMongo (reg : Registry) (CT : ClassTable) (c : Option ClassId)
    (depth : Nat) : Registry :=
  match c with
  | none => reg
  | some c =>
      if depth > 5 then reg
      else
        match (CT c).kind with
        | .entity => { reg with domainEntity := reg.domainEntity.map (mongoTouch CT) }
        | .enumeration => { reg with domainEnum := reg.domainEnum.map (mongoTouch CT) }
        | _ => reg

/-- C8.  Against the actual `DOMAIN_TYPE_MAPPINGS` contents, the
pre-processing write never alters a registry-aliased descriptor (none
of the domain descriptors has an array type), so compilation leaves the
registry unchanged, and a second compilation of the same class against
the post-compilation state returns exactly the first artifact — for all
three backends. -/
theorem C8_compilation_pure (reg : Registry) (CT : ClassTable) (c : Option ClassId)
    (depth : Nat)
    (h1 : reg.domainEntity = DOMAIN_ENTITY_META)
    (h2 : reg.domainEnum = DOMAIN_ENUM_META) :
    (∀ p ∈ reg.domainEntity, mongoTouch CT p = p)
    ∧ (∀ p ∈ reg.domainEnum, mongoTouch CT p = p)
    ∧ registryAfterMongo reg CT c depth = reg
    ∧ mongoExtract (registryAfterMongo reg CT c depth) CT c depth
        = mongoExtract reg CT c depth
    ∧ pgExtract (registryAfterMongo reg CT c depth) CT c depth
        = pgExtract reg CT c depth
    ∧ pgGetTypeOrmEntity (registryAfterMongo reg CT c depth) CT c depth
        = pgGetTypeOrmEntity reg CT c depth
    ∧ (∀ cc, neoExtractSchema (registryAfterMongo reg CT c depth) CT cc
        = neoExtractSchema reg CT cc) := by
  have htouchE : ∀ p ∈ reg.domainEntity, mongoTouch CT p = p := by
    intro p hp
    rw [h1] at hp
    simp only [DOMAIN_ENTITY_META, List.mem_cons, List.not_mem_nil, or_false] at hp
    rcases hp with rfl | rfl | rfl <;> rfl
  have htouchN : ∀ p ∈ reg.domainEnum, mongoTouch CT p = p := by
    intro p hp
    rw [h2] at hp
    simp only [DOMAIN_ENUM_META, List.mem_cons, List.not_mem_nil, or_false] at hp
    rcases hp with rfl | rfl <;> rfl
  have hmapE : reg.domainEntity.map (mongoTouch CT) = reg.domainEntity := by
    rw [h1]
    rfl
  have hmapN : reg.domainEnum.map (mongoTouch CT) = reg.domainEnum := by
    rw [h2]
    rfl
  have hreg : registryAfterMongo reg CT c depth = reg := by
    cases c with
    | none => rfl
    | some cc =>
        unfold registryAfterMongo
        by_cases hd : depth > 5
        · simp [hd]
        · cases hk : (CT cc).kind <;> simp [hd, hk, hmapE, hmapN]
  refine ⟨htouchE, htouchN, hreg, by rw [hreg], by rw [hreg], by rw [hreg],
    fun cc => by rw [hreg]⟩

/-- Witness for C8 at the `DeepEntity` registry. -/
theorem C8_compilation_pure_witness :
    (deepReg.domainEntity = DOMAIN_ENTITY_META
      ∧ deepReg.domainEnum = DOMAIN_ENUM_META)
    ∧ ((∀ p ∈ deepReg.domainEntity, mongoTouch deepCT p = p)
    ∧ (∀ p ∈ deepReg.domainEnum, mongoTouch deepCT p = p)
    ∧ registryAfterMongo deepReg deepCT (some "DeepEntity") 0 = deepReg
    ∧ mongoExtract (registryAfterMongo deepReg deepCT (some "DeepEntity") 0) deepCT
        (some "DeepEntity") 0 = mongoExtract deepReg deepCT (some "DeepEntity") 0
    ∧ pgExtract (registryAfterMongo deepReg deepCT (some "DeepEntity") 0) deepCT
        (some "DeepEntity") 0 = pgExtract deepReg deepCT (some "DeepEntity") 0
    ∧ pgGetTypeOrmEntity (registryAfterMongo deepReg deepCT (some "DeepEntity") 0) deepCT
        (some "DeepEntity") 0 = pgGetTypeOrmEntity deepReg deepCT (some "DeepEntity") 0
    ∧ (∀ cc, neoExtractSchema (registryAfterMongo deepReg deepCT (some "DeepEntity") 0)
        deepCT cc = neoExtractSchema deepReg deepCT cc)) :=
  ⟨⟨by decide, by decide⟩,
    C8_compilation_pure deepReg deepCT (some "DeepEntity") 0 (by decide) (by decide)⟩

/-! ## C10: unique-constraint enforcement in the repository -/

theorem EntityV.lookup_document_ne (e : EntityV) (k : Key) (h : k ≠ "_id") :
    lookupKey e.document k = e.get k := by
  have h' : ¬ "_id" = k := fun hh => h hh.symm
  simp [EntityV.document, EntityV.get, lookupKey, h']

theorem EntityV.lookup_document_id (e : EntityV) :
    lookupKey e.document "_id" = some (.s e.id) := rfl

/-- C10.  With a unique-marked property set, inserting a second entity
whose unique properties all equal those of an already-stored entity
fails with the stable code `UNIQUE_CONSTRAINT_VIOLATION` and leaves the
store unchanged, while both successful inserts append their documents
and `findById` on either stored identifier returns the hydrated
instance with the matching identifier. -/
theorem C10_unique_insert_findById (hydrateFn : MDoc → EntityV)
    (uniqueProperties : List Key) (e1 e2 e3 : EntityV)
    (hne : uniqueProperties ≠ [])
    (hnid : "_id" ∉ uniqueProperties)
    (h12 : ∃ k ∈ uniqueProperties, ¬ e2.get k = e1.get k)
    (h31 : ∀ k ∈ uniqueProperties, e3.get k = e1.get k)
    (hids : ¬ e1.id = e2.id)
    (hhyd : ∀ (d : MDoc) (i : String),
      lookupKey d "_id" = some (.s i) → (hydrateFn d).id = i) :
    (mongoInsert uniqueProperties [] e1).1 = Except.ok ()
    ∧ (mongoInsert uniqueProperties [] e1).2 = [e1.document]
    ∧ (mongoInsert uniqueProperties [e1.document] e2).1 = Except.ok ()
    ∧ (mongoInsert uniqueProperties [e1.document] e2).2 = [e1.document, e2.document]
    ∧ (mongoInsert uniqueProperties [e1.document, e2.document] e3).1
        = Except.error { code := ["UNIQUE_CONSTRAINT_VIOLATION"] }
    ∧ (mongoInsert uniqueProperties [e1.document, e2.document] e3).2
        = [e1.document, e2.document]
    ∧ (mongoFindById hydrateFn [e1.document, e2.document] e1.id).map EntityV.id
        = some e1.id
    ∧ (mongoFindById hydrateFn [e1.document, e2.document] e2.id).map EntityV.id
        = some e2.id := by
  have hne' : uniqueProperties.isEmpty = false := by
    cases uniqueProperties with
    | nil => exact absurd rfl hne
    | cons k ks => rfl
  have hq3 : (uniqueProperties.map (fun prop => (prop, e3.get prop))).all
      (fun kv => lookupKey e1.document kv.1 == kv.2) = true := by
    rw [List.all_eq_true]
    intro kv hkv
    rcases List.mem_map.mp hkv with ⟨k, hk, rfl⟩
    have hkne : k ≠ "_id" := fun hc => hnid (hc ▸ hk)
    simp [EntityV.lookup_document_ne e1 k hkne, h31 k hk]
  have hq2 : (uniqueProperties.map (fun prop => (prop, e2.get prop))).all
      (fun kv => lookupKey e1.document kv.1 == kv.2) = false := by
    rcases h12 with ⟨k, hk, hne2⟩
    rw [Bool.eq_false_iff]
    intro hall
    rw [List.all_eq_true] at hall
    have := hall (k, e2.get k) (List.mem_map.mpr ⟨k, hk, rfl⟩)
    have hkne : k ≠ "_id" := fun hc => hnid (hc ▸ hk)
    rw [EntityV.lookup_document_ne e1 k hkne] at this
    have heq : e1.get k = e2.get k := by simpa using this
    exact hne2 heq.symm
  have hid1 : (lookupKey e1.document "_id" == some (JVal.s e1.id)) = true := by
    simp [EntityV.lookup_document_id]
  have hid12 : (lookupKey e1.document "_id" == some (JVal.s e2.id)) = false := by
    simp [EntityV.lookup_document_id, hids]
  have hid2 : (lookupKey e2.document "_id" == some (JVal.s e2.id)) = true := by
    simp [EntityV.lookup_document_id]
  refine ⟨?_, ?_, ?_, ?_, ?_, ?_, ?_, ?_⟩
  · simp [mongoInsert, hne', findOneDoc, List.find?]
  · simp [mongoInsert, hne', findOneDoc, List.find?]
  · simp [mongoInsert, hne', findOneDoc, List.find?, hq2]
  · simp [mongoInsert, hne', findOneDoc, List.find?, hq2]
  · simp [mongoInsert, hne', findOneDoc, List.find?, hq3]
  · simp [mongoInsert, hne', findOneDoc, List.find?, hq3]
  · have : findByIdDoc [e1.document, e2.document] e1.id = some e1.document := by
      simp [findByIdDoc, List.find?, hid1]
    rw [mongoFindById, this]
    simp [hhyd e1.document e1.id (EntityV.lookup_document_id e1)]
  · have : findByIdDoc [e1.document, e2.document] e2.id = some e2.document := by
      simp [findByIdDoc, List.find?, hid12, hid2]
    rw [mongoFindById, this]
    simp [hhyd e2.document e2.id (EntityV.lookup_document_id e2)]

def c10E1 : EntityV := { id := "u1", fields := [("name", .s "A"), ("email", .s "a@x.io")] }

def c10E2 : EntityV := { id := "u2", fields := [("name", .s "B"), ("email", .s "b@x.io")] }

def c10E3 : EntityV := { id := "u3", fields := [("name", .s "C"), ("email", .s "a@x.io")] }

/-- The hydration function of the witness: rebuild the identifier from
the stored `_id` field. -/
def c10Hydrate (d : MDoc) : EntityV :=
  { id := match lookupKey d "_id" with
          | some (.s i) => i
          | _ => ""
    fields := d }

/-- Witness for C10 at the `User{id, name, email(unique)}` scenario. -/
theorem C10_unique_insert_findById_witness :
    (["email"] ≠ ([] : List Key)
      ∧ "_id" ∉ ["email"]
      ∧ (∃ k ∈ ["email"], ¬ c10E2.get k = c10E1.get k)
      ∧ (∀ k ∈ ["email"], c10E3.get k = c10E1.get k)
      ∧ ¬ c10E1.id = c10E2.id)
    ∧ ((mongoInsert ["email"] [] c10E1).1 = Except.ok ()
    ∧ (mongoInsert ["email"] [] c10E1).2 = [c10E1.document]
    ∧ (mongoInsert ["email"] [c10E1.document] c10E2).1 = Except.ok ()
    ∧ (mongoInsert ["email"] [c10E1.document] c10E2).2
        = [c10E1.document, c10E2.document]
    ∧ (mongoInsert ["email"] [c10E1.document, c10E2.document] c10E3).1
        = Except.error { code := ["UNIQUE_CONSTRAINT_VIOLATION"] }
    ∧ (mongoInsert ["email"] [c10E1.document, c10E2.document] c10E3).2
        = [c10E1.document, c10E2.document]
    ∧ (mongoFindById c10Hydrate [c10E1.document, c10E2.document] c10E1.id).map
        EntityV.id = some c10E1.id
    ∧ (mongoFindById c10Hydrate [c10E1.document, c10E2.document] c10E2.id).map
        EntityV.id = some c10E2.id) :=
  ⟨⟨by decide, by decide, by decide, by decide, by decide⟩,
    C10_unique_insert_findById c10Hydrate ["email"] c10E1 c10E2 c10E3
      (by decide) (by decide) (by decide) (by decide) (by decide)
      (by
        intro d i h
        simp [c10Hydrate, h])⟩

end TsInfra
